import Mathlib

/-!
# ADXRS290 IIO attribute handlers and the tinyiiod attribute dispatcher

A shallow embedding of

* `iio/iio_adxrs290/iio_adxrs290.c` (frequency tables, cutoff get/set handlers,
  raw channel read), and
* `projects/drivers/tinyiiod/tinyiiod_util.c` (attribute lookup, dispatch and the
  bulk packer `read_all_attr`),

followed by theorems about them.

Conventions of the embedding

* C integers are `Int`/`Nat` with explicit reduction to the declared width
  (`wrapS 16` for `int16_t`, ...).
* `float` is IEEE-754 binary32 with round-to-nearest-even, represented exactly
  by a ratio of integers; arithmetic is evaluated in binary32
  (`FLT_EVAL_METHOD == 0`).
* A C text is the list of characters before its terminating NUL.
* Behaviour that C leaves undefined (a float-to-integer conversion out of
  range, an index that leaves the table) is `none`.
* A handler whose name ends in `_on` or `_with` is the same handler on a given
  machine or C library: what that machine or library does where C leaves the
  behaviour undefined is a parameter, and the handler is total.
-/

set_option autoImplicit false

/-! ## C integer arithmetic -/

/-- Value of the `w`-bit two's-complement word congruent to `x`
(conversion of `x` to a signed integer type of width `w`). -/
def wrapS (w : Nat) (x : Int) : Int :=
  let m := x % (2 : Int) ^ w
  if m < (2 : Int) ^ (w - 1) then m else m - (2 : Int) ^ w

/-- errno value `EINVAL`. -/
def EINVAL : Int := 22

/-- errno value `ENOENT`. -/
def ENOENT : Int := 2

/-- errno value `ENODEV`. -/
def ENODEV : Int := 19

/-- Modelled from the spec: `error.h`, which defines `FAILURE`, is not part of the
sources at hand; it is the generic failure code of the drivers, `-1`, distinct
from `-EINVAL`. -/
def FAILURE : Int := -1

/-! ## Decimal output (`%d`) and `snprintf` -/

/-- Conversion `%d` of `printf`: optional minus sign and the decimal digits. -/
def fmt_d (x : Int) : List Char :=
  if x < 0 then '-' :: Nat.toDigits 10 x.natAbs else Nat.toDigits 10 x.natAbs

/-- The call `snprintf(buf, len, ...)` whose fully formatted text is `s`: the
return value is the length of `s`; when `len > 0` the buffer receives the first
`len - 1` characters of `s` (and a terminator), when `len = 0` nothing is
written (`none`). -/
def snprintf (len : Nat) (s : List Char) : Int × Option (List Char) :=
  ((s.length : Int), if len = 0 then none else some (s.take (len - 1)))

/-! ## IEEE-754 binary32 -/

/-- A binary32 datum: the finite value `num / den` (with `den > 0`; the sign of a
zero is not tracked), an infinity, or a NaN. -/
inductive F32 where
  | fin (num : Int) (den : Nat)
  | inf (neg : Bool)
  | nan
  deriving DecidableEq, Repr

/-- Floor of the binary logarithm of a positive natural number (`fuel` bounds the
number of halvings). -/
def ilog2 : Nat → Nat → Nat
  | 0, _ => 0
  | fuel + 1, n => if n < 2 then 0 else ilog2 fuel (n / 2) + 1

/-- Floor of the binary logarithm of the positive ratio `n / d`. -/
def ilog2_ratio (n d : Nat) : Int :=
  if d ≤ n then (ilog2 (n + 1) (n / d) : Int)
  else
    let k := ilog2 (d + 1) (d / n)
    if n * 2 ^ k = d then -(k : Int) else -(k : Int) - 1

/-- Nearest integer to `n / d`, ties to even. -/
def round_half_even (n d : Nat) : Nat :=
  let q := n / d
  let r := n % d
  if 2 * r < d then q
  else if d < 2 * r then q + 1
  else if q % 2 = 0 then q else q + 1

/-- Rounding of the real number `± n / d` to binary32, round-to-nearest-even:
24 significant bits, exponents from `-126` (subnormals below) to `127`, overflow
to infinity. -/
def f32_round (neg : Bool) (n d : Nat) : F32 :=
  if n = 0 then F32.fin 0 1
  else
    let e : Int := max (ilog2_ratio n d) (-126)
    if 127 < e then F32.inf neg
    else
      let p : Int := e - 23
      let m : Nat :=
        if 0 ≤ p then round_half_even n (d * 2 ^ p.toNat)
        else round_half_even (n * 2 ^ (-p).toNat) d
      let sgn : Int := if neg then -1 else 1
      if 0 ≤ p then
        if 2 ^ 128 ≤ m * 2 ^ p.toNat then F32.inf neg
        else F32.fin (sgn * (m * 2 ^ p.toNat : Nat)) 1
      else F32.fin (sgn * (m : Int)) (2 ^ (-p).toNat)

/-- The binary32 value nearest to the ratio `num / den` (`den > 0`). -/
def f32_of_ratio (num : Int) (den : Nat) : F32 :=
  f32_round (decide (num < 0)) num.natAbs den

/-- Conversion of an `int` to `float`. -/
def f32_of_int (i : Int) : F32 := f32_of_ratio i 1

/-- Binary32 multiplication: the exact product, rounded. -/
def f32_mul : F32 → F32 → F32
  | F32.fin n1 d1, F32.fin n2 d2 => f32_of_ratio (n1 * n2) (d1 * d2)
  | F32.fin n _, F32.inf s => if n = 0 then F32.nan else F32.inf (xor s (decide (n < 0)))
  | F32.inf s, F32.fin n _ => if n = 0 then F32.nan else F32.inf (xor s (decide (n < 0)))
  | F32.inf s1, F32.inf s2 => F32.inf (xor s1 s2)
  | F32.nan, _ => F32.nan
  | _, F32.nan => F32.nan

/-- The cast `(int32_t) x` of a `float`: truncation toward zero; undefined
(`none`) when the truncated value is not representable, for infinities and for
NaN. -/
def f32_to_int32 : F32 → Option Int
  | F32.fin n d =>
    let t := Int.tdiv n d
    if -2147483648 ≤ t ∧ t ≤ 2147483647 then some t else none
  | _ => none

/-! ## `strtof` -/

/-- Character class `isspace` of the C locale. -/
def isspace (c : Char) : Bool :=
  c.toNat = 32 || (9 ≤ c.toNat && c.toNat ≤ 13)

/-- Value of a hexadecimal digit, if the character is one. -/
def hex_digit (c : Char) : Option Nat :=
  if c.isDigit then some (c.toNat - 48)
  else if 97 ≤ c.toNat ∧ c.toNat ≤ 102 then some (c.toNat - 87)
  else if 65 ≤ c.toNat ∧ c.toNat ≤ 70 then some (c.toNat - 55)
  else none

/-- Value of a digit string in base `b`, continuing from the accumulator `acc`. -/
def digits_value (b : Nat) : List Char → Nat → Nat
  | [], acc => acc
  | c :: cs, acc => digits_value b cs (acc * b + (hex_digit c).getD 0)

/-- Lower-case form of the first `k` characters. -/
def lower_head (k : Nat) (s : List Char) : List Char :=
  (s.take k).map Char.toLower

/-- Optional exponent part `<mark>[+-]digits` of a floating literal: the signed
exponent, `0` when the part is absent or has no digit. -/
def exponent_part (mark : Char) (s : List Char) : Int :=
  match s with
  | [] => 0
  | c :: cs =>
    if c.toLower = mark then
      match cs with
      | '-' :: ds =>
        let run := ds.takeWhile Char.isDigit
        if run = [] then 0 else -(digits_value 10 run 0 : Int)
      | '+' :: ds => (digits_value 10 (ds.takeWhile Char.isDigit) 0 : Int)
      | ds => (digits_value 10 (ds.takeWhile Char.isDigit) 0 : Int)
    else 0

/-- The number denoted by the mantissa digits `ip . fp` in base `b`, scaled by
`sb ^ ex`, rounded to binary32 with the sign `neg`. -/
def scaled_literal (neg : Bool) (b sb : Nat) (ip fp : List Char) (ex : Int) : F32 :=
  let mant := digits_value b (ip ++ fp) 0
  let den := b ^ fp.length
  if 0 ≤ ex then f32_round neg (mant * sb ^ ex.toNat) den
  else f32_round neg mant (den * sb ^ (-ex).toNat)

/-- The subject sequence after white space and sign have been removed. -/
def strtof_unsigned (neg : Bool) (s : List Char) : F32 :=
  if lower_head 3 s = ['i', 'n', 'f'] then F32.inf neg
  else if lower_head 3 s = ['n', 'a', 'n'] then F32.nan
  else if (lower_head 2 s = ['0', 'x'] ∧ ((s.drop 2).head?.bind hex_digit).isSome) ∨
      (lower_head 3 s = ['0', 'x', '.'] ∧ ((s.drop 3).head?.bind hex_digit).isSome) then
    let body := s.drop 2
    let ip := body.takeWhile (fun c => (hex_digit c).isSome)
    let r1 := body.drop ip.length
    let fp := match r1 with
      | '.' :: r2 => r2.takeWhile (fun c => (hex_digit c).isSome)
      | _ => []
    let r3 := match r1 with
      | '.' :: r2 => r2.drop fp.length
      | _ => r1
    scaled_literal neg 16 2 ip fp (exponent_part 'p' r3)
  else
    let ip := s.takeWhile Char.isDigit
    let r1 := s.drop ip.length
    let fp := match r1 with
      | '.' :: r2 => r2.takeWhile Char.isDigit
      | _ => []
    let r3 := match r1 with
      | '.' :: r2 => r2.drop fp.length
      | _ => r1
    if ip = [] ∧ fp = [] then F32.fin 0 1
    else scaled_literal neg 10 10 ip fp (exponent_part 'e' r3)

/-- The call `strtof(buf, NULL)`: leading white space, an optional sign, then a
decimal or hexadecimal floating literal, `inf` or `nan`; the correctly rounded
binary32 value of the longest such prefix, and zero when there is none. -/
def strtof (buf : List Char) : F32 :=
  match buf.dropWhile isspace with
  | '-' :: s => strtof_unsigned true s
  | '+' :: s => strtof_unsigned false s
  | s => strtof_unsigned false s

/-! ## Frequency tables (`iio_adxrs290.c`) -/

/-- Available cut-off frequencies of the low pass filter in Hz; integer part and
fractional part (in micro-Hz) of every entry. -/
def adxrs290_lpf_3db_freq_hz_table : List (Int × Int) :=
  [(480, 0), (320, 0), (160, 0), (80, 0), (56, 600000), (40, 0), (28, 300000), (20, 0)]

/-- Available cut-off frequencies of the high pass filter in Hz; integer part and
fractional part (in micro-Hz) of every entry. -/
def adxrs290_hpf_3db_freq_hz_table : List (Int × Int) :=
  [(0, 0), (0, 11000), (0, 22000), (0, 44000), (0, 87000), (0, 175000), (0, 350000),
   (0, 700000), (1, 400000), (2, 800000), (11, 300000)]

/-- Calls into the ADXRS290 driver that change the device. -/
inductive HwCall where
  | adxrs290_set_hpf (i : Nat)
  | adxrs290_set_lpf (i : Nat)
  deriving DecidableEq, Repr

/-- The search loop `for (i = 0; i < n; i++) if (table[i][0] == val && table[i][1] == val2)`
of the cutoff set handlers, started at index `i` on the rest of the table: the
first index whose entry is `(val, val2)`. -/
def table_scan (val val2 : Int) : List (Int × Int) → Nat → Option Nat
  | [], _ => none
  | e :: rest, i =>
    if e.1 = val ∧ e.2 = val2 then some i else table_scan val val2 rest (i + 1)

/-- The integer part `val = (int32_t)x` computed by the set handlers. -/
def cutoff_val (x : F32) : Option Int := f32_to_int32 x

/-- The fractional part `val2 = (int32_t)(x * 1000000) % 1000000` computed by the
set handlers (`%` truncates toward zero). -/
def cutoff_val2 (x : F32) : Option Int :=
  (f32_to_int32 (f32_mul x (f32_of_int 1000000))).map (fun c => Int.tmod c 1000000)

/-- Body of `set_adxrs290_iio_ch_hpf` after `hpf = strtof(buf, NULL)`: the return
value and the driver calls made. -/
def set_hpf_value (hpf : F32) (len : Nat) : Option (Int × List HwCall) :=
  match cutoff_val hpf, cutoff_val2 hpf with
  | some val, some val2 =>
    match table_scan val val2 adxrs290_hpf_3db_freq_hz_table 0 with
    | some i => some ((len : Int), [HwCall.adxrs290_set_hpf i])
    | none => some (FAILURE, [])
  | _, _ => none

/-- Handler `set_adxrs290_iio_ch_hpf(device, buf, len, channel)`. -/
def set_adxrs290_iio_ch_hpf (buf : List Char) (len : Nat) : Option (Int × List HwCall) :=
  set_hpf_value (strtof buf) len

/-- Body of `set_adxrs290_iio_ch_lpf` after `lpf = strtof(buf, NULL)`: the return
value and the driver calls made. -/
def set_lpf_value (lpf : F32) (len : Nat) : Option (Int × List HwCall) :=
  match cutoff_val lpf, cutoff_val2 lpf with
  | some val, some val2 =>
    match table_scan val val2 adxrs290_lpf_3db_freq_hz_table 0 with
    | some i => some ((len : Int), [HwCall.adxrs290_set_lpf i])
    | none => some (FAILURE, [])
  | _, _ => none

/-- Handler `set_adxrs290_iio_ch_lpf(device, buf, len, channel)`. -/
def set_adxrs290_iio_ch_lpf (buf : List Char) (len : Nat) : Option (Int × List HwCall) :=
  set_lpf_value (strtof buf) len

/-- The text `"%d.%d"` of a table entry. -/
def fmt_entry (e : Int × Int) : List Char :=
  fmt_d e.1 ++ '.' :: fmt_d e.2

/-- Handler `get_adxrs290_iio_ch_hpf`; `index` is the 8-bit value delivered by
`adxrs290_get_hpf`. The result is `none` if the table is read out of bounds. -/
def get_adxrs290_iio_ch_hpf (index : Nat) (len : Nat) : Option (Int × Option (List Char)) :=
  let index := if index > 0x0A then 0x0A else index
  (adxrs290_hpf_3db_freq_hz_table.get? index).map (fun e => snprintf len (fmt_entry e))

/-- Handler `get_adxrs290_iio_ch_lpf`; `index` is the 8-bit value delivered by
`adxrs290_get_lpf`. The result is `none` if the table is read out of bounds. -/
def get_adxrs290_iio_ch_lpf (index : Nat) (len : Nat) : Option (Int × Option (List Char)) :=
  let index := if index > 0x07 then 0x07 else index
  (adxrs290_lpf_3db_freq_hz_table.get? index).map (fun e => snprintf len (fmt_entry e))

/-- Handler `get_adxrs290_iio_ch_raw`; `reg` is the 16-bit word delivered by
`adxrs290_get_rate_data` into the `int16_t data`, `temp` stands for the constant
`ADXRS290_CHANNEL_TEMP` of `adxrs290.h`. The operands of `<<` and `>>` are
promoted to the 32-bit `int`; the result is converted back to `int16_t`. -/
def get_adxrs290_iio_ch_raw (temp : Nat) (reg : Nat) (ch_num : Nat) (len : Nat) :
    Int × Option (List Char) :=
  let data : Int := wrapS 16 reg
  let data : Int :=
    if ch_num = temp then wrapS 16 ((wrapS 32 (data * 2 ^ 4)) / 2 ^ 4) else data
  snprintf len (fmt_d data)

/-! ## Attribute tables and dispatch (`tinyiiod_util.c`) -/

/-- A character buffer, addressed by the offset from its start. -/
abbrev Mem := Int → Nat

/-- The C structure `channel_info`. -/
structure channel_info where
  ch_num : Int
  ch_out : Bool
  deriving DecidableEq, Repr

/-- Entry of an attribute map (`struct attrtibute_map`) before the terminating
entry whose name is `NULL`. The callback `exec(buf, len, channel)` may read and
write its buffer and the remaining machine state `σ` and returns an `ssize_t`. -/
structure attrtibute_map (σ : Type) where
  attr_name : String
  exec : Mem → Nat → channel_info → σ → Int × Mem × σ

/-- Result of a dispatcher call: the returned `ssize_t`, the caller's buffer and
the machine state afterwards, together with a record of what happened:
`calls` lists, in order, the table position of every handler invoked and the
value it returned; `recs` lists the offset and the stored length of every record
produced by `read_all_attr`. -/
structure Outcome (σ : Type) where
  ret : Int
  buf : Mem
  st : σ
  calls : List (Nat × Int)
  recs : List (Int × Int)

/-- The function `strequal`: `!strcmp(str1, str2)`. -/
def strequal (str1 str2 : String) : Bool := decide (str1 = str2)

/-- The call `strtol(p, &p, 10)` made by `get_channel_number` at a digit: the value
of the maximal run of digits `run`, limited to `long_max` (the `LONG_MAX` of the
platform) and converted to `int32_t`. -/
def strtol_run (long_max : Nat) (run : List Char) : Int :=
  wrapS 32 (min (digits_value 10 run 0) long_max : Nat)

/-- The loop of `get_channel_number` on the rest `p` of the name; every iteration
consumes at least one character, `fuel` bounds the number of iterations. -/
def get_channel_number_loop (long_max : Nat) : Nat → List Char → Int → Int
  | 0, _, ch_num => ch_num
  | _ + 1, [], ch_num => ch_num
  | fuel + 1, c :: cs, ch_num =>
    if c.isDigit then
      let run := (c :: cs).takeWhile Char.isDigit
      get_channel_number_loop long_max fuel ((c :: cs).drop run.length) (strtol_run long_max run)
    else get_channel_number_loop long_max fuel cs ch_num

/-- The function `get_channel_number`. -/
def get_channel_number (long_max : Nat) (ch : String) : Int :=
  get_channel_number_loop long_max ch.length ch.toList 0

/-- The loop of `get_attribute_id` at index `i` on the rest of the table. The
index is an `int16_t`: stepping past `32767` leaves the table (`none`). -/
def get_attribute_id_loop {σ : Type} (attr : String) :
    List (attrtibute_map σ) → Nat → Option Int
  | [], _ => some (-ENODEV)
  | e :: rest, i =>
    if strequal attr e.attr_name then some (i : Int)
    else if 32767 < i + 1 then none
    else get_attribute_id_loop attr rest (i + 1)

/-- The function `get_attribute_id`; the map is `none` for a `NULL` pointer. -/
def get_attribute_id {σ : Type} (attr : String) (map : Option (List (attrtibute_map σ))) :
    Option Int :=
  match map with
  | none => some (-EINVAL)
  | some m => get_attribute_id_loop attr m 0

/-- The function `Xil_EndianSwap32` of the platform: the 32-bit word with its four
bytes in reverse order. -/
def Xil_EndianSwap32 (v : Nat) : Nat :=
  (v % 256) * 2 ^ 24 + (v / 2 ^ 8 % 256) * 2 ^ 16 + (v / 2 ^ 16 % 256) * 2 ^ 8 + v / 2 ^ 24 % 256

/-- Store of the 32-bit word `v` at offset `off` in the byte order of the host. -/
def store32 (host_big_endian : Bool) (m : Mem) (off : Int) (v : Nat) : Mem :=
  fun a =>
    if off ≤ a ∧ a < off + 4 then
      let k := (a - off).toNat
      if host_big_endian then v / 2 ^ (8 * (3 - k)) % 256 else v / 2 ^ (8 * k) % 256
    else m a

/-- Length of the text in a scratch buffer of `fuel` bytes starting at `k`:
position of the first NUL, `none` when there is none inside the buffer. -/
def text_length (m : Mem) : Nat → Nat → Option Nat
  | 0, _ => none
  | fuel + 1, k => if m (k : Int) = 0 then some k else text_length m fuel (k + 1)

/-- The call `sprintf(dst + off, "%s", src)` for a text of `n` characters: the
characters and the terminating NUL are stored from `off` on. -/
def sprintf_s (dst : Mem) (off : Int) (src : Mem) (n : Nat) : Mem :=
  fun a =>
    if off ≤ a ∧ a < off + n then src (a - off)
    else if a = off + n then 0
    else dst a

/-- State of the loop of `read_all_attr`: the cursor `j`, the caller's buffer, the
scratch buffer `local_buf`, the machine state and the record of the run. -/
structure BulkState (σ : Type) where
  j : Int
  buf : Mem
  local_buf : Mem
  st : σ
  calls : List (Nat × Int)
  recs : List (Int × Int)

/-- One iteration of the loop of `read_all_attr` for the entry `e` at index `i`. -/
def read_all_attr_step {σ : Type} (host_big_endian : Bool) (len : Nat) (channel : channel_info)
    (e : attrtibute_map σ) (i : Nat) (s : BulkState σ) : Option (BulkState σ) :=
  let r := e.exec s.local_buf len channel s.st
  let attr_length : Int := wrapS 16 r.1
  let buf1 := store32 host_big_endian s.buf s.j
    (Xil_EndianSwap32 (attr_length % 2 ^ 32).toNat)
  let j1 := wrapS 16 (s.j + 4)
  let calls := s.calls ++ [(i, r.1)]
  let recs := s.recs ++ [(s.j, attr_length)]
  if 0 ≤ attr_length then
    match text_length r.2.1 0x1000 0 with
    | none => none
    | some n =>
      let buf2 := sprintf_s buf1 j1 r.2.1 n
      let attr_length2 : Int :=
        if attr_length % 4 ≠ 0 then wrapS 16 ((attr_length / 4 + 1) * 4) else attr_length
      some ⟨wrapS 16 (j1 + attr_length2), buf2, r.2.1, r.2.2, calls, recs⟩
  else some ⟨j1, buf1, r.2.1, r.2.2, calls, recs⟩

/-- The loop of `read_all_attr` at index `i` on the rest of the table. The index
is an `int16_t`: stepping past `32767` leaves the table (`none`). -/
def read_all_attr_loop {σ : Type} (host_big_endian : Bool) (len : Nat) (channel : channel_info) :
    List (attrtibute_map σ) → Nat → BulkState σ → Option (BulkState σ)
  | [], _, s => some s
  | e :: rest, i, s =>
    match read_all_attr_step host_big_endian len channel e i s with
    | none => none
    | some s1 =>
      if 32767 < i + 1 then none
      else read_all_attr_loop host_big_endian len channel rest (i + 1) s1

/-- The function `read_all_attr`; `stack` is the initial content of the
uninitialised `local_buf`. -/
def read_all_attr {σ : Type} (host_big_endian : Bool) (stack : Mem) (buf : Mem) (len : Nat)
    (channel : channel_info) (map : List (attrtibute_map σ)) (st : σ) : Option (Outcome σ) :=
  (read_all_attr_loop host_big_endian len channel map 0 ⟨0, buf, stack, st, [], []⟩).map
    (fun s => ⟨s.j, s.buf, s.st, s.calls, s.recs⟩)

/-- The function `write_all_attr`. -/
def write_all_attr {σ : Type} (buf : Mem) (st : σ) : Outcome σ :=
  ⟨0, buf, st, [], []⟩

/-- The function `ch_exec_read_attr`; the map is `none` for a `NULL` pointer. -/
def ch_exec_read_attr {σ : Type} (long_max : Nat) (host_big_endian : Bool) (stack : Mem)
    (channel : String) (ch_out : Bool) (attr : String) (buf : Mem) (len : Nat)
    (map : Option (List (attrtibute_map σ))) (st : σ) : Option (Outcome σ) :=
  let channel_info : channel_info := ⟨get_channel_number long_max channel, ch_out⟩
  match get_attribute_id attr map with
  | none => none
  | some attribute_id =>
    if 0 ≤ attribute_id then
      match map.bind (fun m => m.get? attribute_id.toNat) with
      | none => none
      | some e =>
        let r := e.exec buf len channel_info st
        some ⟨r.1, r.2.1, r.2.2, [(attribute_id.toNat, r.1)], []⟩
    else if strequal attr "" then
      match map with
      | none => none
      | some m => read_all_attr host_big_endian stack buf len channel_info m st
    else some ⟨-ENOENT, buf, st, [], []⟩

/-- The function `ch_exec_write_attr`; the map is `none` for a `NULL` pointer. -/
def ch_exec_write_attr {σ : Type} (long_max : Nat)
    (channel : String) (ch_out : Bool) (attr : String) (buf : Mem) (len : Nat)
    (map : Option (List (attrtibute_map σ))) (st : σ) : Option (Outcome σ) :=
  let channel_info : channel_info := ⟨get_channel_number long_max channel, ch_out⟩
  match get_attribute_id attr map with
  | none => none
  | some attribute_id =>
    if 0 ≤ attribute_id then
      match map.bind (fun m => m.get? attribute_id.toNat) with
      | none => none
      | some e =>
        let r := e.exec buf len channel_info st
        some ⟨r.1, r.2.1, r.2.2, [(attribute_id.toNat, r.1)], []⟩
    else if strequal attr "" then some (write_all_attr buf st)
    else some ⟨-ENOENT, buf, st, [], []⟩

/-! ## Specification-side notions -/

/-- The `float` nearest to the physical value `integerHz + fractionalMicroHz / 10^6`
of a table entry. -/
def entry_float (e : Int × Int) : F32 :=
  f32_of_ratio (e.1 * 1000000 + e.2) 1000000

/-- A text `<digits>.<digits>` read as a decimal number: numerator and
denominator of the number it denotes. -/
def decimal_reading (s : List Char) : Nat × Nat :=
  let ip := s.takeWhile Char.isDigit
  let fp := ((s.drop ip.length).drop 1).takeWhile Char.isDigit
  (digits_value 10 (ip ++ fp) 0, 10 ^ fp.length)

/-- Whether the text `s`, read as a decimal number, equals the physical value
`integerHz + fractionalMicroHz / 10^6` of the entry `e`. -/
def denotes_entry (s : List Char) (e : Int × Int) : Bool :=
  decide (((decimal_reading s).1 : Int) * 1000000
    = (e.1 * 1000000 + e.2) * ((decimal_reading s).2 : Int))

/-- Whether the high-pass search started with the split of `x` ends at `r`. -/
def hpf_scan_result (x : F32) (r : Option Nat) : Bool :=
  match cutoff_val x, cutoff_val2 x with
  | some val, some val2 => decide (table_scan val val2 adxrs290_hpf_3db_freq_hz_table 0 = r)
  | _, _ => false

/-- Whether the low-pass search started with the split of `x` ends at `r`. -/
def lpf_scan_result (x : F32) (r : Option Nat) : Bool :=
  match cutoff_val x, cutoff_val2 x with
  | some val, some val2 => decide (table_scan val val2 adxrs290_lpf_3db_freq_hz_table 0 = r)
  | _, _ => false

/-- Rounding up to the next multiple of 4. -/
def roundUp4 (n : Int) : Int := (n + 3) / 4 * 4

/-- Size of the record of a handler that returned the length `L`: the length
field and the padded payload. -/
def record_size (L : Int) : Int := 4 + roundUp4 (max L 0)

/-- Sum of the record sizes for the returned lengths `Ls`. -/
def total_size (Ls : List Int) : Int := (Ls.map record_size).sum

/-- Start offsets of consecutive records, the first at `j`. -/
def record_offsets (j : Int) : List Int → List Int
  | [] => []
  | L :: Ls => j :: record_offsets (j + record_size L) Ls

/-- The cursor `j` of `read_all_attr` after a handler returned `L`, in the
`int16_t` arithmetic of the source. -/
def next_cursor (j L : Int) : Int :=
  let attr_length := wrapS 16 L
  let j1 := wrapS 16 (j + 4)
  if 0 ≤ attr_length then
    wrapS 16 (j1 +
      (if attr_length % 4 ≠ 0 then wrapS 16 ((attr_length / 4 + 1) * 4) else attr_length))
  else j1

/-- The cursor after the handlers returned `Ls` in turn. -/
def cursor_after (j : Int) : List Int → Int
  | [] => j
  | L :: Ls => cursor_after (next_cursor j L) Ls

/-- The offsets and stored lengths of the records for the returned lengths `Ls`,
the first record at `j`. -/
def records_from (j : Int) : List Int → List (Int × Int)
  | [] => []
  | L :: Ls => (j, wrapS 16 L) :: records_from (next_cursor j L) Ls

/-- Every handler of the table that reports success on a call with the length
`len` leaves a NUL inside the `0x1000` bytes of the scratch buffer. -/
def leaves_text {σ : Type} (len : Nat) (map : List (attrtibute_map σ)) : Prop :=
  ∀ e, e ∈ map → ∀ (b : Mem) (c : channel_info) (st : σ),
    0 ≤ wrapS 16 (e.exec b len c st).1 → text_length (e.exec b len c st).2.1 0x1000 0 ≠ none

/-! ## Sample tables -/

/-- The buffer `b` after the text `t` and its terminator were stored at its start. -/
def put_text (t : List Char) (b : Mem) : Mem :=
  fun a =>
    if 0 ≤ a ∧ a < (t.length : Int) then (t.getD a.toNat ' ').toNat
    else if a = (t.length : Int) then 0
    else b a

/-- A read handler that stores the text `t` with `sprintf` and returns its length. -/
def text_attr (name : String) (t : List Char) : attrtibute_map Unit :=
  ⟨name, fun b _ _ s => ((t.length : Int), put_text t b, s)⟩

/-- A handler that fails with the error `err` and leaves its buffer alone. -/
def failing_attr (name : String) (err : Int) : attrtibute_map Unit :=
  ⟨name, fun b _ _ s => (-err, b, s)⟩

/-- A read handler that formats a text of 4000 characters with
`snprintf(buf, len, ...)`: it stores at most `len - 1` of them and returns 4000. -/
def long_attr (name : String) : attrtibute_map Unit :=
  ⟨name, fun b len _ s =>
    (4000, if len = 0 then b else put_text (List.replicate (min 4000 (len - 1)) 'x') b, s)⟩

/-- A table of two readable attributes. -/
def sample_map : List (attrtibute_map Unit) :=
  [text_attr "raw" ['5', '6', '4'], text_attr "scale" ['1', '0', '0']]

/-- A table whose second handler has the empty name. -/
def sample_map_empty_name : List (attrtibute_map Unit) :=
  [text_attr "raw" ['5', '6', '4'], text_attr "" ['1', '0', '0']]

/-- A table of nine attributes of 4000 characters each. -/
def sample_map_long : List (attrtibute_map Unit) :=
  List.replicate 9 (long_attr "a")

/-- A buffer of zero bytes. -/
def zero_mem : Mem := fun _ => 0


/-! ## Direct register access (`iio_adxrs290.c`) -/

/-- The constant `MAX_REG_ADDR`. -/
def MAX_REG_ADDR : Nat := 0x12

/-- An access to a device register made through the driver. -/
inductive RegAccess where
  | read (addr : Nat)
  | write (addr : Nat) (val : Nat)
  deriving DecidableEq, Repr

/-- The state the direct-register handlers work on: the register store of the
device, the global `current_direct_reg` and the record of the register accesses
made so far. -/
structure reg_state where
  regs : Nat → Nat
  current_direct_reg : Nat
  log : List RegAccess

/-- Modelled from the spec: the driver function `adxrs290_reg_read` is not part of
the sources at hand; the register I/O is reliable and a read returns the 8-bit
value last written to the address. -/
def adxrs290_reg_read (st : reg_state) (addr : Nat) : Nat × reg_state :=
  (st.regs addr % 256, { st with log := st.log ++ [RegAccess.read addr] })

/-- Modelled from the spec: the driver function `adxrs290_reg_write` is not part of
the sources at hand; the register I/O is reliable and a write stores the 8-bit
value at the address. -/
def adxrs290_reg_write (st : reg_state) (addr val : Nat) : reg_state :=
  { st with
    regs := fun a => if a = addr then val else st.regs a
    log := st.log ++ [RegAccess.write addr val] }

/-- Outcome of one conversion of `sscanf`: a value and the unread input, a
matching failure, the end of the input, or a value that the `unsigned int`
cannot hold (undefined). -/
inductive ScanItem where
  | value (v : Nat) (rest : List Char)
  | mismatch
  | eof
  | undefined
  deriving DecidableEq, Repr

/-- The `unsigned int` stored for the digits of value `v` read with the sign
`neg`: a negative number is negated in the unsigned type. -/
def scan_store (neg : Bool) (v : Nat) (rest : List Char) : ScanItem :=
  if 4294967295 < v then ScanItem.undefined
  else if neg ∧ v ≠ 0 then ScanItem.value (4294967296 - v) rest
  else ScanItem.value v rest

/-- The digits part of the conversion `%u`, after white space and sign. -/
def scan_u_digits (neg : Bool) (s : List Char) : ScanItem :=
  let run := s.takeWhile Char.isDigit
  if run = [] then ScanItem.mismatch
  else scan_store neg (digits_value 10 run 0) (s.drop run.length)

/-- The conversion `%u` of `sscanf`: white space, an optional sign and decimal
digits. -/
def scan_u (s : List Char) : ScanItem :=
  match s.dropWhile isspace with
  | [] => ScanItem.eof
  | '-' :: t => scan_u_digits true t
  | '+' :: t => scan_u_digits false t
  | t => scan_u_digits false t

/-- The hexadecimal digits of the conversion `%x`, after white space, sign and the
optional `0x`. -/
def scan_x_digits (neg : Bool) (s : List Char) : ScanItem :=
  let run := s.takeWhile (fun c => (hex_digit c).isSome)
  if run = [] then ScanItem.mismatch
  else scan_store neg (digits_value 16 run 0) (s.drop run.length)

/-- The part of the conversion `%x` after white space and sign: an optional `0x`
or `0X` and hexadecimal digits; a `0x` that no hexadecimal digit follows is a
matching failure. -/
def scan_x_body (neg : Bool) (s : List Char) : ScanItem :=
  match s with
  | '0' :: 'x' :: t => scan_x_digits neg t
  | '0' :: 'X' :: t => scan_x_digits neg t
  | t => scan_x_digits neg t

/-- The conversion `%x` of `sscanf`: white space, an optional sign, an optional
`0x` and hexadecimal digits. -/
def scan_x (s : List Char) : ScanItem :=
  match s.dropWhile isspace with
  | [] => ScanItem.eof
  | '-' :: t => scan_x_body true t
  | '+' :: t => scan_x_body false t
  | t => scan_x_body false t

/-- The tail `" 0x%x"` of the format after the first conversion stored `reg`: the
number of assignments and the values of `reg` and `val`. -/
def sscanf_second (reg : Nat) (rest : List Char) : Option (Int × Nat × Nat) :=
  match rest.dropWhile isspace with
  | '0' :: 'x' :: t =>
    match scan_x t with
    | ScanItem.value val _ => some (2, reg, val)
    | ScanItem.undefined => none
    | _ => some (1, reg, 0)
  | _ => some (1, reg, 0)

/-- The call `sscanf(buf, "0x%x 0x%x", &reg, &val)`: the returned number of
assignments (`-1` for `EOF`) and the values of `reg` and `val`, which mean
something only as far as they were assigned; `none` when a number does not fit
its `unsigned int`. -/
def sscanf_reg_val (buf : List Char) : Option (Int × Nat × Nat) :=
  match buf with
  | [] => some (-1, 0, 0)
  | ['0'] => some (-1, 0, 0)
  | '0' :: 'x' :: t =>
    match scan_x t with
    | ScanItem.value reg rest => sscanf_second reg rest
    | ScanItem.eof => some (-1, 0, 0)
    | ScanItem.mismatch => some (0, 0, 0)
    | ScanItem.undefined => none
  | _ => some (0, 0, 0)

/-- The call `sscanf(buf, "%u", &reg)`: the returned number of assignments
(`-1` for `EOF`) and the value of `reg`; `none` when the number does not fit. -/
def sscanf_reg (buf : List Char) : Option (Int × Nat) :=
  match scan_u buf with
  | ScanItem.value reg _ => some (1, reg)
  | ScanItem.eof => some (-1, 0)
  | ScanItem.mismatch => some (0, 0)
  | ScanItem.undefined => none

/-- Handler `get_adxrs290_iio_reg`. -/
def get_adxrs290_iio_reg (len : Nat) (st : reg_state) :
    (Int × Option (List Char)) × reg_state :=
  let r := adxrs290_reg_read st st.current_direct_reg
  (snprintf len (fmt_d (r.1 : Int)), r.2)

/-- Handler `set_adxrs290_iio_reg`; `param_size` is the `uint8_t` that receives
the result of `sscanf`. -/
def set_adxrs290_iio_reg (buf : List Char) (len : Nat) (st : reg_state) :
    Option (Int × reg_state) :=
  match sscanf_reg_val buf with
  | none => none
  | some (n, reg, val) =>
    let param_size := n % 256
    if param_size = 2 then
      if reg > MAX_REG_ADDR then some (-EINVAL, st)
      else some ((len : Int), adxrs290_reg_write st (reg % 256) (val % 256))
    else
      match sscanf_reg buf with
      | none => none
      | some (n2, reg2) =>
        let param_size := n2 % 256
        if param_size = 1 then
          if reg2 > MAX_REG_ADDR then some (-EINVAL, st)
          else some ((len : Int), { st with current_direct_reg := reg2 % 256 })
        else some (-EINVAL, st)

/-- A request to the direct-register attribute. -/
inductive RegRequest where
  | read (len : Nat)
  | write (buf : List Char) (len : Nat)

/-- What the `sscanf` of a C library does on the two calls of the handler
`set_adxrs290_iio_reg`: for a text, the count returned and the values left in
`reg` and `val` by `sscanf(buf, "0x%x 0x%x", &reg, &val)`, and the count
returned and the value left in `reg` by `sscanf(buf, "%u", &reg)`. -/
structure sscanf_impl where
  reg_val : List Char → Int × Nat × Nat
  reg : List Char → Int × Nat

/-- The library that does what C prescribes (`sscanf_reg_val`, `sscanf_reg`)
wherever C defines the call, and what `ub` does on the texts for which C leaves
the call undefined because a number does not fit its `unsigned int`. -/
def sscanf_std (ub : sscanf_impl) : sscanf_impl :=
  ⟨fun buf => (sscanf_reg_val buf).getD (ub.reg_val buf),
   fun buf => (sscanf_reg buf).getD (ub.reg buf)⟩

/-- A sample of what a library may do where C leaves the call undefined: the call
with the first format reports no assignment, the call with `%u` stores the
leading decimal digits as a number modulo `2^32`. -/
def sscanf_wrap : sscanf_impl :=
  ⟨fun _ => (0, 0, 0),
   fun buf => (1, digits_value 10 (buf.takeWhile Char.isDigit) 0 % 4294967296)⟩

/-- Handler `set_adxrs290_iio_reg` linked with the library `lib`, on every text:
`param_size` is the `uint8_t` that receives the result of `sscanf`, `reg` and
`val` are the numbers that the library left in the two variables. -/
def set_adxrs290_iio_reg_with (lib : sscanf_impl) (buf : List Char) (len : Nat)
    (st : reg_state) : Int × reg_state :=
  let r := lib.reg_val buf
  let param_size := r.1 % 256
  let reg := r.2.1
  let val := r.2.2
  if param_size = 2 then
    if reg > MAX_REG_ADDR then (-EINVAL, st)
    else ((len : Int), adxrs290_reg_write st (reg % 256) (val % 256))
  else
    let r2 := lib.reg buf
    let param_size := r2.1 % 256
    let reg := r2.2
    if param_size = 1 then
      if reg > MAX_REG_ADDR then (-EINVAL, st)
      else ((len : Int), { st with current_direct_reg := reg % 256 })
    else (-EINVAL, st)

/-- The state after one request to the handlers linked with `lib`. -/
def reg_request_step_with (lib : sscanf_impl) (st : reg_state) : RegRequest → reg_state
  | RegRequest.read len => (get_adxrs290_iio_reg len st).2
  | RegRequest.write buf len => (set_adxrs290_iio_reg_with lib buf len st).2

/-- The state after a sequence of requests to the handlers linked with `lib`. -/
def reg_requests_run_with (lib : sscanf_impl) : List RegRequest → reg_state → reg_state
  | [], st => st
  | r :: rs, st => reg_requests_run_with lib rs (reg_request_step_with lib st r)

/-- The initial state: `current_direct_reg = 0`, no access made yet. -/
def reg_state_init (regs : Nat → Nat) : reg_state := ⟨regs, 0, []⟩

/-! ## Specification-side notions for channel names and the record stream -/

/-- The maximal runs of decimal digits of a text, left to right; `cur` is the run
being read. -/
def digit_runs : List Char → List Char → List (List Char)
  | [], cur => if cur = [] then [] else [cur]
  | c :: cs, cur =>
    if c.isDigit then digit_runs cs (cur ++ [c])
    else if cur = [] then digit_runs cs [] else cur :: digit_runs cs []

/-- Byte `k` (0 is the first) of the big-endian two's-complement 32-bit encoding
of `x`. -/
def be32_byte (x : Int) (k : Nat) : Nat :=
  (x % 2 ^ 32).toNat / 2 ^ (8 * (3 - k)) % 256

/-- The signed 32-bit number whose big-endian encoding is stored at `off`. -/
def be32_at (m : Mem) (off : Int) : Int :=
  wrapS 32 ((m off * 2 ^ 24 + m (off + 1) * 2 ^ 16 + m (off + 2) * 2 ^ 8 + m (off + 3) : Nat) : Int)

/-- The `n` bytes stored from `off` on. -/
def bytes_at (m : Mem) (off : Int) (n : Nat) : List Nat :=
  (List.range n).map (fun (k : Nat) => m (off + (k : Int)))

/-- Decoding of the bytes from `off` up to `total` as a stream of records: a
big-endian 32-bit length; when it is non-negative, that many payload bytes and
filler up to a multiple of 4; when it is negative, no payload. The result is
the list of lengths and payloads, `none` when the bytes are not such a stream of
at most `fuel` records. -/
def decode_records (m : Mem) (total : Int) : Nat → Int → Option (List (Int × List Nat))
  | 0, off => if off = total then some [] else none
  | fuel + 1, off =>
    if off = total then some []
    else if total < off + 4 then none
    else
      let L := be32_at m off
      if 0 ≤ L then
        if total < off + 4 + roundUp4 L then none
        else (decode_records m total fuel (off + 4 + roundUp4 L)).map
          (fun rs => (L, bytes_at m (off + 4) L.toNat) :: rs)
      else (decode_records m total fuel (off + 4)).map (fun rs => (L, []) :: rs)

/-- What the handlers of a table report when called in turn, each on the scratch
buffer and state its predecessor left: the returned length and, for a handler
that succeeded, the text of that length it left in the scratch buffer. -/
def expected_records {σ : Type} (len : Nat) (ch : channel_info) :
    List (attrtibute_map σ) → Mem → σ → List (Int × List Nat)
  | [], _, _ => []
  | e :: rest, scratch, st =>
    let r := e.exec scratch len ch st
    (r.1, if 0 ≤ r.1 then bytes_at r.2.1 0 r.1.toNat else []) ::
      expected_records len ch rest r.2.1 r.2.2

/-- Every handler of the table, called with the length `len`, returns either a
negative value not below `-32768` or the length of the text it leaves in the
scratch buffer. -/
def returns_text_length {σ : Type} (len : Nat) (map : List (attrtibute_map σ)) : Prop :=
  ∀ e, e ∈ map → ∀ (b : Mem) (c : channel_info) (st : σ),
    -32768 ≤ (e.exec b len c st).1 ∧
    (0 ≤ (e.exec b len c st).1 →
      text_length (e.exec b len c st).2.1 0x1000 0 = some (e.exec b len c st).1.toNat)

/-- The byte found at the returned total after `read_all_attr`, given the byte
`before` that was there and the length `last` that the last handler returned
(`none` for an empty table): the terminator of the last payload when that
handler succeeded with a length that is a multiple of 4. -/
def byte_at_total (before : Nat) (last : Option Int) : Nat :=
  match last with
  | some L => if 0 ≤ L ∧ L % 4 = 0 then 0 else before
  | none => before

/-- A table whose middle handler fails. -/
def sample_map_failing : List (attrtibute_map Unit) :=
  [text_attr "raw" ['5', '6', '4'], failing_attr "offset" 22, text_attr "scale" ['1', '0', '0', '0']]

/-- A table of one attribute whose text has four characters. -/
def sample_map_four : List (attrtibute_map Unit) :=
  [text_attr "scale" ['1', '0', '0', '0']]

/-- A buffer filled with the byte `0xFF`. -/
def ff_mem : Mem := fun _ => 255

/-- The physical value of a table entry in micro-Hz:
`integerHz * 10^6 + fractionalMicroHz`. -/
def entry_micro_hz (e : Int × Int) : Int := e.1 * 1000000 + e.2

/-! ## Lemmas on C integer conversions -/

theorem wrapS_16_of_range (x : Int) (h1 : -32768 ≤ x) (h2 : x ≤ 32767) : wrapS 16 x = x := by
  unfold wrapS
  norm_num
  split_ifs <;> omega

theorem wrapS_32_of_range (x : Int) (h1 : -2147483648 ≤ x) (h2 : x ≤ 2147483647) :
    wrapS 32 x = x := by
  unfold wrapS
  norm_num
  split_ifs <;> omega

theorem wrapS_16_range (x : Int) : -32768 ≤ wrapS 16 x ∧ wrapS 16 x ≤ 32767 := by
  unfold wrapS
  norm_num
  split_ifs <;> omega

/-! ## Lemmas on the cutoff handlers -/

theorem set_hpf_value_of_scan (x : F32) (len i : Nat) (h : hpf_scan_result x (some i) = true) :
    set_hpf_value x len = some ((len : Int), [HwCall.adxrs290_set_hpf i]) := by
  unfold hpf_scan_result at h
  unfold set_hpf_value
  cases h1 : cutoff_val x <;> cases h2 : cutoff_val2 x <;> simp_all

theorem set_lpf_value_of_scan (x : F32) (len i : Nat) (h : lpf_scan_result x (some i) = true) :
    set_lpf_value x len = some ((len : Int), [HwCall.adxrs290_set_lpf i]) := by
  unfold lpf_scan_result at h
  unfold set_lpf_value
  cases h1 : cutoff_val x <;> cases h2 : cutoff_val2 x <;> simp_all

theorem set_lpf_value_of_scan_none (x : F32) (len : Nat) (h : lpf_scan_result x none = true) :
    set_lpf_value x len = some (FAILURE, []) := by
  unfold lpf_scan_result at h
  unfold set_lpf_value
  cases h1 : cutoff_val x <;> cases h2 : cutoff_val2 x <;> simp_all

/-- C1: for every index of the low-pass table (0..7) and of the high-pass table
(0..10), the set handler applied to the float value of that entry selects
exactly that index (and returns `len`). -/
theorem cutoff_encode_decode_roundtrip (len : Nat) :
    (∀ i, i < 8 → ∃ e, adxrs290_lpf_3db_freq_hz_table.get? i = some e ∧
      set_lpf_value (entry_float e) len = some ((len : Int), [HwCall.adxrs290_set_lpf i])) ∧
    (∀ i, i < 11 → ∃ e, adxrs290_hpf_3db_freq_hz_table.get? i = some e ∧
      set_hpf_value (entry_float e) len = some ((len : Int), [HwCall.adxrs290_set_hpf i])) := by
  constructor
  · intro i hi
    interval_cases i <;>
      exact ⟨_, rfl, set_lpf_value_of_scan _ _ _ (by decide)⟩
  · intro i hi
    interval_cases i <;>
      exact ⟨_, rfl, set_hpf_value_of_scan _ _ _ (by decide)⟩

/-- C2: at high-pass index 1 the get handler produces the text `0.11000`, which
read as a decimal number is 0.11 and not the 0.011 of the entry `(0, 11000)`;
the set handler rejects that text. The same happens at indices 2, 3 and 4; the
texts of all other entries of both tables denote their entry. -/
theorem get_hpf_text_drops_leading_zeros :
    get_adxrs290_iio_ch_hpf 1 32 = some (7, some ['0', '.', '1', '1', '0', '0', '0']) ∧
    adxrs290_hpf_3db_freq_hz_table.get? 1 = some (0, 11000) ∧
    decimal_reading ['0', '.', '1', '1', '0', '0', '0'] = (11000, 100000) ∧
    denotes_entry ['0', '.', '1', '1', '0', '0', '0'] (0, 11000) = false ∧
    set_adxrs290_iio_ch_hpf ['0', '.', '1', '1', '0', '0', '0'] 7 = some (FAILURE, []) ∧
    (∀ i, i < 11 → ∃ e, adxrs290_hpf_3db_freq_hz_table.get? i = some e ∧
      get_adxrs290_iio_ch_hpf i 32 = some (((fmt_entry e).length : Int), some (fmt_entry e)) ∧
      denotes_entry (fmt_entry e) e = !decide (1 ≤ i ∧ i ≤ 4)) ∧
    (∀ i, i < 8 → ∃ e, adxrs290_lpf_3db_freq_hz_table.get? i = some e ∧
      get_adxrs290_iio_ch_lpf i 32 = some (((fmt_entry e).length : Int), some (fmt_entry e)) ∧
      denotes_entry (fmt_entry e) e = true) := by
  refine ⟨by decide, by decide, by decide, by decide, by decide, ?_, ?_⟩
  · intro i hi
    interval_cases i <;> exact ⟨_, rfl, by decide, by decide⟩
  · intro i hi
    interval_cases i <;> exact ⟨_, rfl, by decide, by decide⟩

/-- C3: for every index delivered by the hardware, the low-pass get handler
formats the table entry `min index 7` and the high-pass get handler the entry
`min index 10`; the table is never read out of bounds. -/
theorem get_cutoff_clamps_index (index len : Nat) :
    (∃ e, adxrs290_lpf_3db_freq_hz_table.get? (min index 7) = some e ∧
      get_adxrs290_iio_ch_lpf index len = some (snprintf len (fmt_entry e))) ∧
    (∃ e, adxrs290_hpf_3db_freq_hz_table.get? (min index 10) = some e ∧
      get_adxrs290_iio_ch_hpf index len = some (snprintf len (fmt_entry e))) := by
  constructor
  · by_cases h : index > 7
    · have hm : min index 7 = 7 := by omega
      refine ⟨(20, 0), by rw [hm]; rfl, ?_⟩
      simp [get_adxrs290_iio_ch_lpf, h, adxrs290_lpf_3db_freq_hz_table]
    · have hm : min index 7 = index := by omega
      rw [hm]
      have hi : index < 8 := by omega
      interval_cases index <;> exact ⟨_, rfl, rfl⟩
  · by_cases h : index > 10
    · have hm : min index 10 = 10 := by omega
      refine ⟨(11, 300000), by rw [hm]; rfl, ?_⟩
      simp [get_adxrs290_iio_ch_hpf, h, adxrs290_hpf_3db_freq_hz_table]
    · have hm : min index 10 = index := by omega
      rw [hm]
      have hi : index < 11 := by omega
      interval_cases index <;> exact ⟨_, rfl, rfl⟩

/-- C5: on the temperature channel the register value `0xF234` is output as
`-3532`, not as the 564 that its low 12 bits denote, and the register value
`0x0800` as `2048`, not as `-2048`: the operands of the two shifts are promoted
to `int`, so for every 16-bit register value the temperature channel outputs
the same signed 16-bit number as the other channels (for `0xF800` that number
is `-2048`). -/
theorem raw_temperature_keeps_upper_bits (temp len : Nat) :
    get_adxrs290_iio_ch_raw temp 0xF234 temp len = snprintf len ['-', '3', '5', '3', '2'] ∧
    wrapS 12 0xF234 = 564 ∧
    get_adxrs290_iio_ch_raw temp 0x1234 temp len = snprintf len ['4', '6', '6', '0'] ∧
    wrapS 12 0x1234 = 564 ∧
    get_adxrs290_iio_ch_raw temp 0x0800 temp len = snprintf len ['2', '0', '4', '8'] ∧
    wrapS 12 0x0800 = -2048 ∧
    get_adxrs290_iio_ch_raw temp 0xF800 temp len = snprintf len ['-', '2', '0', '4', '8'] ∧
    (∀ reg ch_num : Nat,
      get_adxrs290_iio_ch_raw temp reg ch_num len = snprintf len (fmt_d (wrapS 16 reg))) := by
  have key : ∀ reg ch_num : Nat,
      get_adxrs290_iio_ch_raw temp reg ch_num len = snprintf len (fmt_d (wrapS 16 reg)) := by
    intro reg ch_num
    unfold get_adxrs290_iio_ch_raw
    have hr := wrapS_16_range (reg : Int)
    have h32 : wrapS 32 (wrapS 16 (reg : Int) * 2 ^ 4) = wrapS 16 (reg : Int) * 16 := by
      norm_num
      apply wrapS_32_of_range <;> omega
    have hdiv : wrapS 16 (reg : Int) * 16 / 2 ^ 4 = wrapS 16 (reg : Int) := by
      norm_num
    by_cases hc : ch_num = temp
    · simp only [hc, if_true]
      rw [h32, hdiv, wrapS_16_of_range _ hr.1 hr.2]
    · simp only [hc, if_false]
  refine ⟨?_, by decide, ?_, by decide, ?_, by decide, ?_, key⟩
  · rw [key]; rfl
  · rw [key]; rfl
  · rw [key]; rfl
  · rw [key]; rfl

/-! ## Lemmas on attribute lookup -/

theorem get?_some_lt {α : Type} {l : List α} {i : Nat} {a : α} (h : l.get? i = some a) :
    i < l.length := by
  by_contra hc
  rw [List.get?_eq_none.2 (by omega)] at h
  cases h

/-- The lookup finds the first entry named `attr`, as long as its index is
representable. -/
theorem get_attribute_id_loop_found {σ : Type} (attr : String) :
    ∀ (m : List (attrtibute_map σ)) (k i : Nat) (e : attrtibute_map σ),
      m.get? i = some e → e.attr_name = attr →
      (∀ j e', j < i → m.get? j = some e' → e'.attr_name ≠ attr) →
      k + i ≤ 32767 →
      get_attribute_id_loop attr m k = some ((k + i : Nat) : Int) := by
  intro m
  induction m with
  | nil => intro k i e h; simp at h
  | cons x rest ih =>
    intro k i e hget hname hmin hk
    unfold get_attribute_id_loop
    cases i with
    | zero =>
      simp at hget
      subst hget
      simp [strequal, hname]
    | succ n =>
      have hx : x.attr_name ≠ attr := hmin 0 x (by omega) (by simp)
      have hx2 : ¬ (attr = x.attr_name) := fun h => hx h.symm
      have hnot : ¬ (32767 < k + 1) := by omega
      simp only [strequal, hx2, decide_False, Bool.false_eq_true, if_false, hnot]
      have := ih (k + 1) n e (by simpa using hget) hname
        (fun j e' hj hj' => hmin (j + 1) e' (by omega) (by simpa using hj')) (by omega)
      rw [this]
      congr 2
      omega

/-- Without an entry named `attr` the lookup ends at the terminator with
`-ENODEV`, as long as the table is indexable. -/
theorem get_attribute_id_loop_absent {σ : Type} (attr : String) :
    ∀ (m : List (attrtibute_map σ)) (k : Nat),
      (∀ e, e ∈ m → e.attr_name ≠ attr) → k + m.length ≤ 32767 →
      get_attribute_id_loop attr m k = some (-ENODEV) := by
  intro m
  induction m with
  | nil => intro k _ _; rfl
  | cons x rest ih =>
    intro k hno hk
    unfold get_attribute_id_loop
    have hx : ¬ (attr = x.attr_name) := fun h => hno x (by simp) h.symm
    have hlen : (x :: rest).length = rest.length + 1 := rfl
    have hnot : ¬ (32767 < k + 1) := by omega
    simp only [strequal, hx, decide_False, Bool.false_eq_true, if_false, hnot]
    exact ih (k + 1) (fun e he => hno e (by simp [he])) (by omega)

/-- Without an entry named `attr` the lookup leaves a table that is too long
for its index. -/
theorem get_attribute_id_loop_long {σ : Type} (attr : String) :
    ∀ (m : List (attrtibute_map σ)) (k : Nat),
      (∀ e, e ∈ m → e.attr_name ≠ attr) → k ≤ 32767 → 32767 < k + m.length →
      get_attribute_id_loop attr m k = none := by
  intro m
  induction m with
  | nil => intro k _ hk0 hk; simp at hk; omega
  | cons x rest ih =>
    intro k hno hk0 hk
    unfold get_attribute_id_loop
    have hx : ¬ (attr = x.attr_name) := fun h => hno x (by simp) h.symm
    have hlen : (x :: rest).length = rest.length + 1 := rfl
    simp only [strequal, hx, decide_False, Bool.false_eq_true, if_false]
    by_cases hk1 : 32767 < k + 1
    · simp [hk1]
    · simp only [hk1, if_false]
      exact ih (k + 1) (fun e he => hno e (by simp [he])) (by omega) (by omega)

/-- Either there is a first entry named `attr` and the lookup returns its index,
or there is none and the lookup returns `-ENODEV`. -/
theorem get_attribute_id_loop_spec {σ : Type} (attr : String) :
    ∀ (m : List (attrtibute_map σ)) (k : Nat), k + m.length ≤ 32767 →
      (∃ i e, m.get? i = some e ∧ e.attr_name = attr ∧
        (∀ j e', j < i → m.get? j = some e' → e'.attr_name ≠ attr) ∧
        get_attribute_id_loop attr m k = some ((k + i : Nat) : Int)) ∨
      ((∀ e, e ∈ m → e.attr_name ≠ attr) ∧
        get_attribute_id_loop attr m k = some (-ENODEV)) := by
  intro m
  induction m with
  | nil => intro k _; exact Or.inr ⟨by simp, rfl⟩
  | cons x rest ih =>
    intro k hk
    have hlen : (x :: rest).length = rest.length + 1 := rfl
    by_cases hx : x.attr_name = attr
    · refine Or.inl ⟨0, x, by simp, hx, by intro j e' hj; omega, ?_⟩
      exact get_attribute_id_loop_found attr (x :: rest) k 0 x (by simp) hx
        (by intro j e' hj; omega) (by omega)
    · rcases ih (k + 1) (by omega) with ⟨i, e, hget, hname, hmin, _⟩ | ⟨hno, _⟩
      · have hi := get?_some_lt hget
        have hmin2 : ∀ j e', j < i + 1 → (x :: rest).get? j = some e' → e'.attr_name ≠ attr := by
          intro j e' hj hj'
          cases j with
          | zero => simp at hj'; subst hj'; exact hx
          | succ n => exact hmin n e' (by omega) (by simpa using hj')
        exact Or.inl ⟨i + 1, e, by simpa using hget, hname, hmin2,
          get_attribute_id_loop_found attr (x :: rest) k (i + 1) e (by simpa using hget) hname
            hmin2 (by omega)⟩
      · have hno2 : ∀ e, e ∈ x :: rest → e.attr_name ≠ attr := by
          intro e he
          rcases List.mem_cons.mp he with h | h
          · subst h; exact hx
          · exact hno e h
        exact Or.inr ⟨hno2, get_attribute_id_loop_absent attr (x :: rest) k hno2 (by omega)⟩

/-! ## Lemmas on the bulk packer -/

/-- A NUL at position `n` inside the scanned part ends the scan. -/
theorem text_length_ne_none (m : Mem) (n : Nat) (hn : m (n : Int) = 0) :
    ∀ (fuel k : Nat), k ≤ n → n < k + fuel → text_length m fuel k ≠ none := by
  intro fuel
  induction fuel with
  | zero => intro k h1 h2; omega
  | succ f ih =>
    intro k h1 h2
    unfold text_length
    by_cases hk : m (k : Int) = 0
    · simp [hk]
    · simp only [hk, if_false]
      have hne : k ≠ n := by
        intro h
        apply hk
        rw [h]
        exact hn
      exact ih (k + 1) (by omega) (by omega)

/-- One iteration of the bulk packer: the cursor, the calls and the records
afterwards. -/
theorem read_all_attr_step_spec {σ : Type} (be : Bool) (len : Nat) (ch : channel_info)
    (e : attrtibute_map σ) (i : Nat) (s : BulkState σ)
    (ht : 0 ≤ wrapS 16 (e.exec s.local_buf len ch s.st).1 →
      text_length (e.exec s.local_buf len ch s.st).2.1 0x1000 0 ≠ none) :
    ∃ s1, read_all_attr_step be len ch e i s = some s1 ∧
      s1.j = next_cursor s.j (e.exec s.local_buf len ch s.st).1 ∧
      s1.calls = s.calls ++ [(i, (e.exec s.local_buf len ch s.st).1)] ∧
      s1.recs = s.recs ++ [(s.j, wrapS 16 (e.exec s.local_buf len ch s.st).1)] := by
  unfold read_all_attr_step next_cursor
  by_cases h : 0 ≤ wrapS 16 (e.exec s.local_buf len ch s.st).1
  · cases htl : text_length (e.exec s.local_buf len ch s.st).2.1 0x1000 0 with
    | none => exact absurd htl (ht h)
    | some n => simp [h, htl]
  · simp [h]

/-- The loop of the bulk packer on an indexable table of handlers that leave a
text: it ends, has called the handlers in order and has moved the cursor as
`cursor_after` says. -/
theorem read_all_attr_loop_spec {σ : Type} (be : Bool) (len : Nat) (ch : channel_info) :
    ∀ (m : List (attrtibute_map σ)) (k : Nat) (s : BulkState σ),
      k + m.length ≤ 32767 → leaves_text len m →
      ∃ s' C, read_all_attr_loop be len ch m k s = some s' ∧
        s'.calls = s.calls ++ C ∧
        C.map Prod.fst = List.range' k m.length ∧
        s'.recs = s.recs ++ records_from s.j (C.map Prod.snd) ∧
        s'.j = cursor_after s.j (C.map Prod.snd) := by
  intro m
  induction m with
  | nil =>
    intro k s _ _
    exact ⟨s, [], rfl, by simp, by simp, by simp [records_from], by simp [cursor_after]⟩
  | cons e rest ih =>
    intro k s hk ht
    have hlen : (e :: rest).length = rest.length + 1 := rfl
    obtain ⟨s1, hstep, hj, hcalls, hrecs⟩ :=
      read_all_attr_step_spec be len ch e k s (ht e (by simp) s.local_buf ch s.st)
    have ht' : leaves_text len rest := fun x hx => ht x (by simp [hx])
    obtain ⟨s', C, hloop, hc, hidx, hr, hj'⟩ := ih (k + 1) s1 (by omega) ht'
    have hnot : ¬ (32767 < k + 1) := by omega
    refine ⟨s', (k, (e.exec s.local_buf len ch s.st).1) :: C, ?_, ?_, ?_, ?_, ?_⟩
    · unfold read_all_attr_loop
      rw [hstep]
      simp only [hnot, if_false]
      exact hloop
    · rw [hc, hcalls]; simp
    · simp [hidx, List.range'_succ]
    · rw [hr, hrecs, hj]; simp [records_from]
    · rw [hj', hj]; simp [cursor_after]

/-- On a table that is too long for its index the loop of the bulk packer leaves
the table. -/
theorem read_all_attr_loop_long {σ : Type} (be : Bool) (len : Nat) (ch : channel_info) :
    ∀ (m : List (attrtibute_map σ)) (k : Nat) (s : BulkState σ),
      k ≤ 32767 → 32767 < k + m.length → read_all_attr_loop be len ch m k s = none := by
  intro m
  induction m with
  | nil => intro k s h1 h2; simp at h2; omega
  | cons e rest ih =>
    intro k s h1 h2
    have hlen : (e :: rest).length = rest.length + 1 := rfl
    unfold read_all_attr_loop
    cases hstep : read_all_attr_step be len ch e k s with
    | none => rfl
    | some s1 =>
      by_cases hk : 32767 < k + 1
      · simp [hk]
      · simp only [hk, if_false]
        exact ih (k + 1) s1 (by omega) (by omega)

theorem roundUp4_nonneg (n : Int) (h : 0 ≤ n) : 0 ≤ roundUp4 n := by
  unfold roundUp4
  omega

theorem record_size_ge (L : Int) : 4 ≤ record_size L := by
  unfold record_size
  have := roundUp4_nonneg (max L 0) (le_max_right L 0)
  omega

theorem record_size_mod (L : Int) : record_size L % 4 = 0 := by
  unfold record_size roundUp4
  omega

theorem total_size_nonneg (Ls : List Int) : 0 ≤ total_size Ls := by
  induction Ls with
  | nil => simp [total_size]
  | cons L Ls ih =>
    have h := record_size_ge L
    unfold total_size at ih ⊢
    simp only [List.map_cons, List.sum_cons]
    omega

/-- Without overflow of the 16-bit cursor one record moves it by `record_size`. -/
theorem next_cursor_exact (j L : Int) (hj : 0 ≤ j) (h1 : -32768 ≤ L) (h2 : L ≤ 32767)
    (hs : j + record_size L ≤ 32767) : next_cursor j L = j + record_size L := by
  unfold next_cursor
  unfold record_size roundUp4 at *
  rw [wrapS_16_of_range L h1 h2]
  by_cases hL : 0 ≤ L
  · have hmax : max L 0 = L := max_eq_left hL
    rw [hmax] at hs ⊢
    simp only [hL, if_true]
    rw [wrapS_16_of_range (j + 4) (by omega) (by omega)]
    by_cases h4 : L % 4 ≠ 0
    · rw [if_pos h4]
      rw [wrapS_16_of_range ((L / 4 + 1) * 4) (by omega) (by omega)]
      rw [wrapS_16_of_range _ (by omega) (by omega)]
      omega
    · rw [if_neg h4]
      rw [wrapS_16_of_range _ (by omega) (by omega)]
      omega
  · have hmax : max L 0 = 0 := max_eq_right (by omega)
    rw [hmax] at hs ⊢
    simp only [hL, if_false]
    rw [wrapS_16_of_range (j + 4) (by omega) (by omega)]
    omega

/-- Without overflow of the 16-bit cursor the records lie back to back. -/
theorem cursor_after_exact :
    ∀ (Ls : List Int) (j : Int), 0 ≤ j → j % 4 = 0 →
      (∀ L, L ∈ Ls → -32768 ≤ L ∧ L ≤ 32767) → j + total_size Ls ≤ 32767 →
      cursor_after j Ls = j + total_size Ls ∧
      records_from j Ls = (record_offsets j Ls).zip Ls ∧
      (∀ off, off ∈ record_offsets j Ls → off % 4 = 0) := by
  intro Ls
  induction Ls with
  | nil => intro j _ _ _ _; simp [cursor_after, total_size, records_from, record_offsets]
  | cons L Ls ih =>
    intro j hj hj4 hr hs
    have hL := hr L (by simp)
    have hsz := record_size_ge L
    have hmod := record_size_mod L
    have htot := total_size_nonneg Ls
    have hsplit : total_size (L :: Ls) = record_size L + total_size Ls := by
      simp [total_size]
    rw [hsplit] at hs
    have hnext := next_cursor_exact j L hj hL.1 hL.2 (by omega)
    obtain ⟨h1, h2, h3⟩ := ih (j + record_size L) (by omega) (by omega)
      (fun x hx => hr x (by simp [hx])) (by omega)
    refine ⟨?_, ?_, ?_⟩
    · simp only [cursor_after]
      rw [hnext, h1, hsplit]
      omega
    · simp only [records_from, record_offsets, List.zip_cons_cons]
      rw [hnext, h2, wrapS_16_of_range L hL.1 hL.2]
    · intro off hoff
      simp only [record_offsets, List.mem_cons] at hoff
      rcases hoff with h | h
      · rw [h]; exact hj4
      · exact h3 off h

theorem records_from_length : ∀ (Ls : List Int) (j : Int), (records_from j Ls).length = Ls.length := by
  intro Ls
  induction Ls with
  | nil => intro j; rfl
  | cons L Ls ih => intro j; simp [records_from, ih]

theorem records_from_lengths :
    ∀ (Ls : List Int) (j : Int), (records_from j Ls).map Prod.snd = Ls.map (wrapS 16) := by
  intro Ls
  induction Ls with
  | nil => intro j; rfl
  | cons L Ls ih => intro j; simp [records_from, ih]

/-- The sample text handlers leave a terminated text. -/
theorem text_attr_leaves_text (name : String) (t : List Char) (ht : t.length < 0x1000)
    (b : Mem) (len : Nat) (c : channel_info) (st : Unit) :
    text_length ((text_attr name t).exec b len c st).2.1 0x1000 0 ≠ none := by
  apply text_length_ne_none _ t.length _ 0x1000 0 (by omega) (by omega)
  simp [text_attr, put_text]

theorem sample_map_leaves_text (len : Nat) : leaves_text len sample_map := by
  intro e he b c st _
  simp only [sample_map, List.mem_cons, List.mem_singleton, List.not_mem_nil, or_false] at he
  rcases he with h | h <;> subst h <;> exact text_attr_leaves_text _ _ (by decide) b len c st

/-! ## Theorems on the dispatcher and the bulk packer -/

/-- C6 (counterexample): in a table whose second handler is named by the empty
string, a read with the empty attribute name calls that handler alone and
returns its 3, where the bulk packer over the table returns 16 after calling
both handlers. -/
theorem empty_name_reaches_handler_named_empty :
    ch_exec_read_attr 2147483647 false zero_mem "voltage0" false "" zero_mem 16
        (some sample_map_empty_name) ()
      ≠ read_all_attr false zero_mem zero_mem 16 ⟨get_channel_number 2147483647 "voltage0", false⟩
        sample_map_empty_name () ∧
    (ch_exec_read_attr 2147483647 false zero_mem "voltage0" false "" zero_mem 16
        (some sample_map_empty_name) ()).map (fun o => (o.ret, o.calls, o.recs))
      = some (3, [(1, 3)], []) ∧
    (read_all_attr false zero_mem zero_mem 16 ⟨get_channel_number 2147483647 "voltage0", false⟩
        sample_map_empty_name ()).map (fun o => (o.ret, o.calls, o.recs))
      = some (16, [(0, 3), (1, 3)], [(0, 3), (8, 3)]) := by
  have h1 : (ch_exec_read_attr 2147483647 false zero_mem "voltage0" false "" zero_mem 16
        (some sample_map_empty_name) ()).map (fun o => (o.ret, o.calls, o.recs))
      = some (3, [(1, 3)], []) := by decide
  have h2 : (read_all_attr false zero_mem zero_mem 16
        ⟨get_channel_number 2147483647 "voltage0", false⟩
        sample_map_empty_name ()).map (fun o => (o.ret, o.calls, o.recs))
      = some (16, [(0, 3), (1, 3)], [(0, 3), (8, 3)]) := by decide
  refine ⟨?_, h1, h2⟩
  intro h
  rw [h, h2] at h1
  exact absurd h1 (by decide)

/-- C6 (amended): for every attribute table without a handler named by the empty
string, and every channel, `ch_exec_read_attr` called with the empty attribute
name is the bulk packer `read_all_attr` over the full table: same return value,
buffer, state, calls and records. -/
theorem empty_name_reads_all {σ : Type} (long_max : Nat) (be : Bool) (stack : Mem)
    (channel : String) (ch_out : Bool) (buf : Mem) (len : Nat)
    (m : List (attrtibute_map σ)) (st : σ)
    (hno : ∀ e, e ∈ m → e.attr_name ≠ "") :
    ch_exec_read_attr long_max be stack channel ch_out "" buf len (some m) st
      = read_all_attr be stack buf len ⟨get_channel_number long_max channel, ch_out⟩ m st := by
  by_cases hlen : m.length ≤ 32767
  · have h := get_attribute_id_loop_absent "" m 0 hno (by omega)
    simp [ch_exec_read_attr, get_attribute_id, h, ENODEV, strequal]
  · have h := get_attribute_id_loop_long "" m 0 hno (by omega) (by omega)
    have h2 := read_all_attr_loop_long be len
      ⟨get_channel_number long_max channel, ch_out⟩ m 0 ⟨0, buf, stack, st, [], []⟩
      (by omega) (by omega)
    simp [ch_exec_read_attr, get_attribute_id, h, read_all_attr, h2]

/-- Witness of C6 (amended) on the sample table of two named attributes. -/
theorem empty_name_reads_all_witness :
    (∀ e, e ∈ sample_map → e.attr_name ≠ "") ∧
    ch_exec_read_attr 2147483647 false zero_mem "voltage0" false "" zero_mem 16
        (some sample_map) ()
      = read_all_attr false zero_mem zero_mem 16
        ⟨get_channel_number 2147483647 "voltage0", false⟩ sample_map () ∧
    (read_all_attr false zero_mem zero_mem 16
        ⟨get_channel_number 2147483647 "voltage0", false⟩ sample_map ()).map
        (fun o => (o.ret, o.calls, o.recs))
      = some (16, [(0, 3), (1, 3)], [(0, 3), (8, 3)]) :=
  ⟨by decide,
    empty_name_reads_all 2147483647 false zero_mem "voltage0" false zero_mem 16 sample_map ()
      (by decide),
    by decide⟩

/-- C7: for every attribute table (indexable by the 16-bit index) and every
non-empty attribute name that no entry has, `ch_exec_read_attr` and
`ch_exec_write_attr` both return `-ENOENT`, call no handler and change neither
the buffer nor the state. -/
theorem unknown_name_is_enoent {σ : Type} (long_max : Nat) (be : Bool) (stack : Mem)
    (channel : String) (ch_out : Bool) (attr : String) (buf : Mem) (len : Nat)
    (m : List (attrtibute_map σ)) (st : σ)
    (hne : attr ≠ "") (hno : ∀ e, e ∈ m → e.attr_name ≠ attr) (hlen : m.length ≤ 32767) :
    ch_exec_read_attr long_max be stack channel ch_out attr buf len (some m) st
      = some ⟨-ENOENT, buf, st, [], []⟩ ∧
    ch_exec_write_attr long_max channel ch_out attr buf len (some m) st
      = some ⟨-ENOENT, buf, st, [], []⟩ := by
  have h := get_attribute_id_loop_absent attr m 0 hno (by omega)
  constructor
  · simp [ch_exec_read_attr, get_attribute_id, h, ENODEV, strequal, hne]
  · simp [ch_exec_write_attr, get_attribute_id, h, ENODEV, strequal, hne]

/-- Witness of C7: the name `offset` on the sample table. -/
theorem unknown_name_is_enoent_witness :
    ("offset" : String) ≠ "" ∧ (∀ e, e ∈ sample_map → e.attr_name ≠ "offset") ∧
    sample_map.length ≤ 32767 ∧
    (ch_exec_read_attr 2147483647 false zero_mem "voltage0" false "offset" zero_mem 16
        (some sample_map) ()).map (fun o => (o.ret, o.calls)) = some (-2, []) := by
  have h := unknown_name_is_enoent 2147483647 false zero_mem "voltage0" false "offset"
    zero_mem 16 sample_map () (by decide) (by decide) (by decide)
  refine ⟨by decide, by decide, by decide, ?_⟩
  rw [h.1]
  rfl

/-- C8: for every attribute table and every attribute name carried by an entry,
`ch_exec_read_attr` and `ch_exec_write_attr` call exactly one handler, the
first one in declared order whose name equals the attribute name, with the
caller's buffer and length and the channel information made of the number
parsed from the channel name and the output flag, and return its result
unchanged. -/
theorem known_name_calls_first_match {σ : Type} (long_max : Nat) (be : Bool) (stack : Mem)
    (channel : String) (ch_out : Bool) (attr : String) (buf : Mem) (len : Nat)
    (m : List (attrtibute_map σ)) (st : σ) (i : Nat) (e : attrtibute_map σ)
    (hget : m.get? i = some e) (hname : e.attr_name = attr)
    (hmin : ∀ j e', j < i → m.get? j = some e' → e'.attr_name ≠ attr)
    (hi : i ≤ 32767) :
    ch_exec_read_attr long_max be stack channel ch_out attr buf len (some m) st
      = some ⟨(e.exec buf len ⟨get_channel_number long_max channel, ch_out⟩ st).1,
          (e.exec buf len ⟨get_channel_number long_max channel, ch_out⟩ st).2.1,
          (e.exec buf len ⟨get_channel_number long_max channel, ch_out⟩ st).2.2,
          [(i, (e.exec buf len ⟨get_channel_number long_max channel, ch_out⟩ st).1)], []⟩ ∧
    ch_exec_write_attr long_max channel ch_out attr buf len (some m) st
      = some ⟨(e.exec buf len ⟨get_channel_number long_max channel, ch_out⟩ st).1,
          (e.exec buf len ⟨get_channel_number long_max channel, ch_out⟩ st).2.1,
          (e.exec buf len ⟨get_channel_number long_max channel, ch_out⟩ st).2.2,
          [(i, (e.exec buf len ⟨get_channel_number long_max channel, ch_out⟩ st).1)], []⟩ := by
  have h := get_attribute_id_loop_found attr m 0 i e hget hname hmin (by omega)
  simp only [Nat.zero_add] at h
  have hget2 : m[i]? = some e := by simpa using hget
  constructor
  · simp [ch_exec_read_attr, get_attribute_id, h, hget2]
  · simp [ch_exec_write_attr, get_attribute_id, h, hget2]

/-- Witness of C8: the name `scale` on the sample table is the entry at index 1. -/
theorem known_name_calls_first_match_witness :
    sample_map.get? 1 = some (text_attr "scale" ['1', '0', '0']) ∧
    (ch_exec_read_attr 2147483647 false zero_mem "voltage2" true "scale" zero_mem 16
        (some sample_map) ()).map (fun o => (o.ret, o.calls, o.recs, o.buf 0, o.buf 3))
      = some (3, [(1, 3)], [], 49, 0) := by
  have h := known_name_calls_first_match 2147483647 false zero_mem "voltage2" true "scale"
    zero_mem 16 sample_map () 1 (text_attr "scale" ['1', '0', '0']) rfl rfl
    (by
      intro j e' hj hj'
      have hj0 : j = 0 := by omega
      subst hj0
      simp [sample_map] at hj'
      subst hj'
      decide)
    (by decide)
  refine ⟨rfl, ?_⟩
  rw [h.1]
  decide

/-- C9: for every table (indexable by the 16-bit index) and every name,
`get_attribute_id` returns a non-negative index exactly when some entry has
that name, and then the index of the first such entry; for a name that no entry
has, the empty string included, it returns the negative `-ENODEV`; for a null
table it returns `-EINVAL`. -/
theorem get_attribute_id_first_match {σ : Type} (attr : String) (m : List (attrtibute_map σ))
    (hlen : m.length ≤ 32767) :
    ((∃ i : Int, 0 ≤ i ∧ get_attribute_id attr (some m) = some i) ↔
      ∃ e, e ∈ m ∧ e.attr_name = attr) ∧
    (∀ i : Int, 0 ≤ i → get_attribute_id attr (some m) = some i →
      ∃ e, m.get? i.toNat = some e ∧ e.attr_name = attr ∧
        ∀ j e', j < i.toNat → m.get? j = some e' → e'.attr_name ≠ attr) ∧
    ((∀ e, e ∈ m → e.attr_name ≠ attr) → get_attribute_id attr (some m) = some (-ENODEV)) ∧
    -ENODEV < 0 ∧
    get_attribute_id attr (none : Option (List (attrtibute_map σ))) = some (-EINVAL) ∧
    -EINVAL < 0 := by
  have hspec := get_attribute_id_loop_spec attr m 0 (by omega)
  simp only [Nat.zero_add] at hspec
  refine ⟨?_, ?_, ?_, by decide, rfl, by decide⟩
  · constructor
    · rintro ⟨i, hi, hres⟩
      rcases hspec with ⟨i', e, hget, hname, _, _⟩ | ⟨hno, hret⟩
      · exact ⟨e, List.mem_iff_get?.mpr ⟨i', hget⟩, hname⟩
      · exfalso
        simp only [get_attribute_id] at hres
        rw [hret] at hres
        have := Option.some.inj hres
        simp [ENODEV] at this
        omega
    · rintro ⟨e, he, hname⟩
      rcases hspec with ⟨i', e', _, _, _, hret⟩ | ⟨hno, _⟩
      · exact ⟨(i' : Int), Int.natCast_nonneg i', hret⟩
      · exact absurd hname (hno e he)
  · intro i hi hres
    simp only [get_attribute_id] at hres
    rcases hspec with ⟨i', e, hget, hname, hmin, hret⟩ | ⟨hno, hret⟩
    · rw [hret] at hres
      have hii : (i' : Int) = i := Option.some.inj hres
      have : i.toNat = i' := by omega
      rw [this]
      exact ⟨e, hget, hname, hmin⟩
    · exfalso
      rw [hret] at hres
      have := Option.some.inj hres
      simp [ENODEV] at this
      omega
  · intro hno
    exact get_attribute_id_loop_absent attr m 0 hno (by omega)

/-- Witness of C9 on the sample table: `scale` is found at index 1, the empty
name is absent. -/
theorem get_attribute_id_first_match_witness :
    sample_map.length ≤ 32767 ∧
    get_attribute_id "scale" (some sample_map) = some 1 ∧
    get_attribute_id "" (some sample_map) = some (-19) ∧
    ((∃ i : Int, 0 ≤ i ∧ get_attribute_id "scale" (some sample_map) = some i) ↔
      ∃ e, e ∈ sample_map ∧ e.attr_name = "scale") :=
  ⟨by decide, by decide, by decide,
    (get_attribute_id_first_match "scale" sample_map (by decide)).1⟩

/-- C10 (counterexample): nine handlers that each return the length 4000 give
records of 4004 bytes each, 36036 bytes in all, but the 16-bit cursor of
`read_all_attr` wraps and the function returns -29500. -/
theorem bulk_total_wraps_at_16_bits :
    (read_all_attr false zero_mem zero_mem 16 ⟨0, false⟩ sample_map_long ()).map
        (fun o => (o.ret, o.calls.map Prod.snd))
      = some (-29500, List.replicate 9 4000) ∧
    total_size (List.replicate 9 4000) = 36036 := by
  constructor
  · set_option maxRecDepth 100000 in decide
  · decide

/-- C10 (amended): for every table of K handlers (K at most 32767, handlers that
leave a terminated text when they succeed) `read_all_attr` returns after calling
the K handlers in declared order and producing K records that store the
returned lengths as 16-bit values; when the returned lengths `L_1..L_K` lie in
the 16-bit range and the sum of `4 + roundUp4(max(L_k, 0))` is at most 32767,
the returned byte count equals that sum, the records lie back to back from
offset 0 and every record starts at a 4-byte-aligned offset. -/
theorem bulk_total_is_sum_of_record_sizes {σ : Type} (be : Bool) (stack buf : Mem) (len : Nat)
    (ch : channel_info) (m : List (attrtibute_map σ)) (st : σ)
    (hlen : m.length ≤ 32767) (ht : leaves_text len m) :
    ∃ o, read_all_attr be stack buf len ch m st = some o ∧
      o.calls.map Prod.fst = List.range m.length ∧
      o.recs.length = m.length ∧
      o.recs.map Prod.snd = (o.calls.map Prod.snd).map (wrapS 16) ∧
      ((∀ L, L ∈ o.calls.map Prod.snd → -32768 ≤ L ∧ L ≤ 32767) →
        total_size (o.calls.map Prod.snd) ≤ 32767 →
        o.ret = total_size (o.calls.map Prod.snd) ∧
        o.recs = (record_offsets 0 (o.calls.map Prod.snd)).zip (o.calls.map Prod.snd) ∧
        ∀ r, r ∈ o.recs → r.1 % 4 = 0) := by
  obtain ⟨s', C, hloop, hc, hidx, hr, hj⟩ :=
    read_all_attr_loop_spec be len ch m 0 ⟨0, buf, stack, st, [], []⟩ (by omega) ht
  simp only [List.nil_append] at hc hr
  have hClen : C.length = m.length := by
    have := congrArg List.length hidx
    simpa using this
  refine ⟨⟨s'.j, s'.buf, s'.st, s'.calls, s'.recs⟩, ?_, ?_, ?_, ?_, ?_⟩
  · simp [read_all_attr, hloop]
  · simp only [hc, hidx]
    exact (List.range_eq_range' (n := m.length)).symm
  · simp only [hr, records_from_length, List.length_map, hClen]
  · simp only [hr, hc, records_from_lengths]
  · intro hrange htot
    simp only [hc] at hrange htot ⊢
    obtain ⟨h1, h2, h3⟩ := cursor_after_exact (C.map Prod.snd) 0 (by omega) (by omega)
      hrange (by omega)
    refine ⟨?_, ?_, ?_⟩
    · rw [hj, h1]; omega
    · rw [hr, h2]
    · intro r hrm
      rw [hr, h2] at hrm
      exact h3 r.1 (List.of_mem_zip hrm).1

/-- Witness of C10 (amended) on the sample table: two records of 8 bytes. -/
theorem bulk_total_is_sum_of_record_sizes_witness :
    sample_map.length ≤ 32767 ∧ leaves_text 16 sample_map ∧
    (∃ o, read_all_attr false zero_mem zero_mem 16 ⟨0, false⟩ sample_map () = some o ∧
      o.calls.map Prod.fst = List.range sample_map.length ∧
      o.recs.length = sample_map.length ∧
      o.recs.map Prod.snd = (o.calls.map Prod.snd).map (wrapS 16) ∧
      ((∀ L, L ∈ o.calls.map Prod.snd → -32768 ≤ L ∧ L ≤ 32767) →
        total_size (o.calls.map Prod.snd) ≤ 32767 →
        o.ret = total_size (o.calls.map Prod.snd) ∧
        o.recs = (record_offsets 0 (o.calls.map Prod.snd)).zip (o.calls.map Prod.snd) ∧
        ∀ r, r ∈ o.recs → r.1 % 4 = 0)) ∧
    (read_all_attr false zero_mem zero_mem 16 ⟨0, false⟩ sample_map ()).map
        (fun o => (o.ret, o.calls.map Prod.snd, total_size (o.calls.map Prod.snd)))
      = some (16, [3, 3], 16) :=
  ⟨by decide, sample_map_leaves_text 16,
    bulk_total_is_sum_of_record_sizes false zero_mem zero_mem 16 ⟨0, false⟩ sample_map ()
      (by decide) (sample_map_leaves_text 16),
    by decide⟩

/-! ## Lemmas on channel names -/

theorem drop_length_takeWhile_eq {α : Type} (p : α → Bool) :
    ∀ (l : List α), l.drop (l.takeWhile p).length = l.dropWhile p := by
  intro l
  induction l with
  | nil => rfl
  | cons a l ih =>
    by_cases h : p a = true
    · simp [List.takeWhile_cons, List.dropWhile_cons, h, ih]
    · simp [List.takeWhile_cons, List.dropWhile_cons, h]

theorem length_dropWhile_le {α : Type} (p : α → Bool) :
    ∀ (l : List α), (l.dropWhile p).length ≤ l.length := by
  intro l
  induction l with
  | nil => simp
  | cons a l ih =>
    by_cases h : p a = true
    · simp only [List.dropWhile_cons, h, if_true, List.length_cons]; omega
    · simp [List.dropWhile_cons, h]

/-- A run that is being read ends where the digits end. -/
theorem digit_runs_of_open_run :
    ∀ (cs cur : List Char), cur ≠ [] →
      digit_runs cs cur
        = (cur ++ cs.takeWhile Char.isDigit) :: digit_runs (cs.dropWhile Char.isDigit) [] := by
  intro cs
  induction cs with
  | nil => intro cur h; simp [digit_runs, h]
  | cons c cs ih =>
    intro cur h
    by_cases hc : c.isDigit = true
    · have := ih (cur ++ [c]) (by simp)
      simp [digit_runs, hc, List.takeWhile_cons, List.dropWhile_cons, this]
    · simp [digit_runs, hc, List.takeWhile_cons, List.dropWhile_cons, h]

theorem getD_map_some {α β : Type} (f : α → β) (a : α) (b : β) :
    (Option.map f (some a)).getD b = f a := rfl

theorem getD_map_none {α β : Type} (f : α → β) (b : β) :
    (Option.map f (none : Option α)).getD b = b := rfl

theorem getD_map_getLast {α β : Type} (f : α → β) (o : Option α) (a : α) (b : β) :
    (Option.map f o).getD (f a) = (Option.map f (some (o.getD a))).getD b := by
  cases o <;> rfl

/-- The loop of `get_channel_number`, given enough fuel, ends with the number of
the last maximal run of digits, or with the number it started from. -/
theorem get_channel_number_loop_eq (long_max : Nat) :
    ∀ (fuel : Nat) (p : List Char) (ch_num : Int), p.length ≤ fuel →
      get_channel_number_loop long_max fuel p ch_num
        = (((digit_runs p []).getLast?).map (strtol_run long_max)).getD ch_num := by
  intro fuel
  induction fuel with
  | zero =>
    intro p ch_num h
    have hp : p = [] := List.length_eq_zero.mp (by omega)
    subst hp
    simp [get_channel_number_loop, digit_runs]
  | succ f ih =>
    intro p ch_num h
    cases p with
    | nil => simp [get_channel_number_loop, digit_runs]
    | cons c cs =>
      have hlen : (c :: cs).length = cs.length + 1 := rfl
      by_cases hc : c.isDigit = true
      · have hrest : (c :: cs).drop ((c :: cs).takeWhile Char.isDigit).length
            = cs.dropWhile Char.isDigit := by
          rw [drop_length_takeWhile_eq]; simp [List.dropWhile_cons, hc]
        have hle := length_dropWhile_le Char.isDigit cs
        have hrun : digit_runs (c :: cs) []
            = ((c :: cs).takeWhile Char.isDigit) :: digit_runs (cs.dropWhile Char.isDigit) [] := by
          have := digit_runs_of_open_run cs [c] (by simp)
          simp [digit_runs, hc, List.takeWhile_cons, this]
        simp only [get_channel_number_loop, hc, if_true]
        rw [hrest, ih _ _ (by omega), hrun, List.getLast?_cons]
        exact getD_map_getLast _ _ _ _
      · simp only [get_channel_number_loop, hc, Bool.false_eq_true, if_false]
        rw [ih _ _ (by omega)]
        simp [digit_runs, hc]

theorem digit_runs_digit_free :
    ∀ (pre l : List Char), (∀ c, c ∈ pre → c.isDigit = false) →
      digit_runs (pre ++ l) [] = digit_runs l [] := by
  intro pre
  induction pre with
  | nil => intro l _; rfl
  | cons c cs ih =>
    intro l h
    have hc : c.isDigit = false := h c (by simp)
    have := ih l (fun x hx => h x (by simp [hx]))
    simp [digit_runs, hc, this]

theorem takeWhile_all {α : Type} (p : α → Bool) :
    ∀ (l : List α), (∀ a, a ∈ l → p a = true) → l.takeWhile p = l ∧ l.dropWhile p = [] := by
  intro l
  induction l with
  | nil => intro _; simp
  | cons a l ih =>
    intro h
    have ha := h a (by simp)
    have := ih (fun x hx => h x (by simp [hx]))
    simp [List.takeWhile_cons, List.dropWhile_cons, ha, this]

theorem digit_runs_all_digits (ds : List Char) (h : ∀ c, c ∈ ds → c.isDigit = true)
    (hne : ds ≠ []) : digit_runs ds [] = [ds] := by
  cases ds with
  | nil => exact absurd rfl hne
  | cons c cs =>
    have hc := h c (by simp)
    have hcs := takeWhile_all Char.isDigit cs (fun x hx => h x (by simp [hx]))
    have := digit_runs_of_open_run cs [c] (by simp)
    simp [digit_runs, hc, this, hcs.1, hcs.2]

theorem strtol_run_of_fits (long_max : Nat) (run : List Char)
    (h1 : digits_value 10 run 0 ≤ long_max) (h2 : digits_value 10 run 0 ≤ 2147483647) :
    strtol_run long_max run = (digits_value 10 run 0 : Int) := by
  unfold strtol_run
  rw [Nat.min_eq_left h1]
  apply wrapS_32_of_range <;> omega

/-! ## Theorems on channel names -/

/-- C13 (counterexample): in the name `a1b22c` the first maximal run of digits
is `1`, but `get_channel_number` returns 22, the number of the last run. -/
theorem channel_number_is_not_first_run :
    get_channel_number 2147483647 "a1b22c" = 22 ∧
    digit_runs "a1b22c".toList [] = [['1'], ['2', '2']] ∧
    strtol_run 2147483647 ['1'] = 1 := by
  decide

/-- C13 (amended): for every channel name, `get_channel_number` returns the
number denoted by the LAST maximal run of decimal digits met when scanning the
name left to right (earlier digit runs are overwritten), and 0 when the name
has no digits; the number of a run is its decimal value when that fits in
`long` and in `int32_t`. -/
theorem channel_number_is_last_run (long_max : Nat) (ch : String) :
    get_channel_number long_max ch
      = (((digit_runs ch.toList []).getLast?).map (strtol_run long_max)).getD 0 ∧
    ((∀ c, c ∈ ch.toList → c.isDigit = false) → get_channel_number long_max ch = 0) ∧
    (∀ run, digits_value 10 run 0 ≤ long_max → digits_value 10 run 0 ≤ 2147483647 →
      strtol_run long_max run = (digits_value 10 run 0 : Int)) := by
  have h := get_channel_number_loop_eq long_max ch.length ch.toList 0 (le_of_eq rfl)
  refine ⟨h, ?_, fun run h1 h2 => strtol_run_of_fits long_max run h1 h2⟩
  intro hfree
  have hnil : digit_runs ch.toList [] = [] := by
    have := digit_runs_digit_free ch.toList [] hfree
    rw [List.append_nil] at this
    exact this
  unfold get_channel_number
  rw [h, hnil, List.getLast?_nil, getD_map_none]

/-- C14: for every channel name made of a digit-free part followed by a run of
trailing decimal digits whose value fits in `int32_t` (and in `long`),
`get_channel_number` returns the value of those digits, and 0 for a digit-free
name; `voltage12` gives 12, `voltage2` gives 2, `altvoltage0` gives 0, `temp`
gives 0. The scan ends on every name: the fuel of the name's length is enough,
and more fuel gives the same result. -/
theorem channel_number_of_trailing_digits (long_max : Nat) (pre ds : List Char)
    (hpre : ∀ c, c ∈ pre → c.isDigit = false) (hds : ∀ c, c ∈ ds → c.isDigit = true)
    (hlong : 2147483647 ≤ long_max) (hfit : digits_value 10 ds 0 ≤ 2147483647) :
    get_channel_number long_max (String.mk (pre ++ ds)) = (digits_value 10 ds 0 : Int) ∧
    (∀ fuel, (pre ++ ds).length ≤ fuel →
      get_channel_number_loop long_max fuel (pre ++ ds) 0 = (digits_value 10 ds 0 : Int)) ∧
    get_channel_number long_max "voltage12" = 12 ∧
    get_channel_number long_max "voltage2" = 2 ∧
    get_channel_number long_max "altvoltage0" = 0 ∧
    get_channel_number long_max "temp" = 0 := by
  have key : ∀ (p d : List Char), (∀ c, c ∈ p → c.isDigit = false) →
      (∀ c, c ∈ d → c.isDigit = true) → digits_value 10 d 0 ≤ 2147483647 →
      ∀ fuel, (p ++ d).length ≤ fuel →
        get_channel_number_loop long_max fuel (p ++ d) 0 = (digits_value 10 d 0 : Int) := by
    intro p d hp hd hf fuel hfuel
    rw [get_channel_number_loop_eq long_max fuel _ 0 hfuel, digit_runs_digit_free p d hp]
    by_cases hne : d = []
    · subst hne
      have h0 : digit_runs [] [] = [] := rfl
      rw [h0, List.getLast?_nil, getD_map_none]
      rfl
    · rw [digit_runs_all_digits d hd hne, List.getLast?_singleton, getD_map_some]
      exact strtol_run_of_fits long_max d (by omega) hf
  have key2 : ∀ (p d : List Char), (∀ c, c ∈ p → c.isDigit = false) →
      (∀ c, c ∈ d → c.isDigit = true) → digits_value 10 d 0 ≤ 2147483647 →
      get_channel_number long_max (String.mk (p ++ d)) = (digits_value 10 d 0 : Int) := by
    intro p d hp hd hf
    exact key p d hp hd hf (p ++ d).length (le_refl _)
  refine ⟨key2 pre ds hpre hds hfit, key pre ds hpre hds hfit, ?_, ?_, ?_, ?_⟩
  · have e : ("voltage12" : String) = String.mk ("voltage".toList ++ ['1', '2']) := by decide
    rw [e, key2 _ _ (by decide) (by decide) (by decide)]
    decide
  · have e : ("voltage2" : String) = String.mk ("voltage".toList ++ ['2']) := by decide
    rw [e, key2 _ _ (by decide) (by decide) (by decide)]
    decide
  · have e : ("altvoltage0" : String) = String.mk ("altvoltage".toList ++ ['0']) := by decide
    rw [e, key2 _ _ (by decide) (by decide) (by decide)]
    decide
  · have e : ("temp" : String) = String.mk ("temp".toList ++ []) := by decide
    rw [e, key2 _ _ (by decide) (by decide) (by decide)]
    decide

/-- Witness of C14 on the name `voltage12` with a 32-bit `long`. -/
theorem channel_number_of_trailing_digits_witness :
    get_channel_number 2147483647 (String.mk ("voltage".toList ++ ['1', '2'])) = 12 ∧
    get_channel_number_loop 2147483647 100 ("voltage".toList ++ ['1', '2']) 0 = 12 := by
  have h := channel_number_of_trailing_digits 2147483647 "voltage".toList ['1', '2']
    (by decide) (by decide) (by decide) (by decide)
  refine ⟨?_, ?_⟩
  · rw [h.1]; decide
  · rw [h.2.1 100 (by decide)]; decide

/-! ## Lemmas on the direct-register handlers -/

theorem sscanf_second_count (reg : Nat) (rest : List Char) (n : Int) (r v : Nat)
    (h : sscanf_second reg rest = some (n, r, v)) : n = 1 ∨ n = 2 := by
  unfold sscanf_second at h
  split at h
  · split at h
    · simp only [Option.some.injEq, Prod.mk.injEq] at h; omega
    · simp at h
    · simp only [Option.some.injEq, Prod.mk.injEq] at h; omega
  · simp only [Option.some.injEq, Prod.mk.injEq] at h; omega

/-- The first `sscanf` returns `EOF`, 0, 1 or 2. -/
theorem sscanf_reg_val_count (buf : List Char) (n : Int) (r v : Nat)
    (h : sscanf_reg_val buf = some (n, r, v)) : n = -1 ∨ n = 0 ∨ n = 1 ∨ n = 2 := by
  unfold sscanf_reg_val at h
  split at h
  · simp only [Option.some.injEq, Prod.mk.injEq] at h; omega
  · simp only [Option.some.injEq, Prod.mk.injEq] at h; omega
  · split at h
    · have := sscanf_second_count _ _ _ _ _ h
      omega
    · simp only [Option.some.injEq, Prod.mk.injEq] at h; omega
    · simp only [Option.some.injEq, Prod.mk.injEq] at h; omega
    · simp at h
  · simp only [Option.some.injEq, Prod.mk.injEq] at h; omega

/-- The second `sscanf` returns `EOF`, 0 or 1. -/
theorem sscanf_reg_count (buf : List Char) (n : Int) (r : Nat)
    (h : sscanf_reg buf = some (n, r)) : n = -1 ∨ n = 0 ∨ n = 1 := by
  unfold sscanf_reg at h
  split at h
  · simp only [Option.some.injEq, Prod.mk.injEq] at h; omega
  · simp only [Option.some.injEq, Prod.mk.injEq] at h; omega
  · simp only [Option.some.injEq, Prod.mk.injEq] at h; omega
  · simp at h

/-- A two-value write with an address in range. -/
theorem set_reg_two_values (buf : List Char) (len : Nat) (st : reg_state) (reg val : Nat)
    (h : sscanf_reg_val buf = some (2, reg, val)) (hr : reg ≤ MAX_REG_ADDR) :
    set_adxrs290_iio_reg buf len st
      = some ((len : Int), adxrs290_reg_write st (reg % 256) (val % 256)) := by
  have hnot : ¬ (reg > MAX_REG_ADDR) := by omega
  simp [set_adxrs290_iio_reg, h, hnot]

/-- A two-value write with an address out of range. -/
theorem set_reg_two_values_einval (buf : List Char) (len : Nat) (st : reg_state)
    (reg val : Nat) (h : sscanf_reg_val buf = some (2, reg, val)) (hr : MAX_REG_ADDR < reg) :
    set_adxrs290_iio_reg buf len st = some (-EINVAL, st) := by
  simp [set_adxrs290_iio_reg, h, hr]

/-- A bare-address write with an address in range. -/
theorem set_reg_bare (buf : List Char) (len : Nat) (st : reg_state) (n : Int)
    (reg val reg2 : Nat) (h : sscanf_reg_val buf = some (n, reg, val)) (hn : n ≠ 2)
    (h2 : sscanf_reg buf = some (1, reg2)) (hr : reg2 ≤ MAX_REG_ADDR) :
    set_adxrs290_iio_reg buf len st
      = some ((len : Int), { st with current_direct_reg := reg2 % 256 }) := by
  have hc := sscanf_reg_val_count buf n reg val h
  have hp : ¬ (n % 256 = 2) := by omega
  have hnot : ¬ (reg2 > MAX_REG_ADDR) := by omega
  simp [set_adxrs290_iio_reg, h, hp, h2, hnot]

/-- A bare-address write with an address out of range. -/
theorem set_reg_bare_einval (buf : List Char) (len : Nat) (st : reg_state) (n : Int)
    (reg val reg2 : Nat) (h : sscanf_reg_val buf = some (n, reg, val)) (hn : n ≠ 2)
    (h2 : sscanf_reg buf = some (1, reg2)) (hr : MAX_REG_ADDR < reg2) :
    set_adxrs290_iio_reg buf len st = some (-EINVAL, st) := by
  have hc := sscanf_reg_val_count buf n reg val h
  have hp : ¬ (n % 256 = 2) := by omega
  simp [set_adxrs290_iio_reg, h, hp, h2, hr]

/-- A write that parses in neither form. -/
theorem set_reg_unparsed (buf : List Char) (len : Nat) (st : reg_state) (n n2 : Int)
    (reg val reg2 : Nat) (h : sscanf_reg_val buf = some (n, reg, val)) (hn : n ≠ 2)
    (h2 : sscanf_reg buf = some (n2, reg2)) (hn2 : n2 ≠ 1) :
    set_adxrs290_iio_reg buf len st = some (-EINVAL, st) := by
  have hc := sscanf_reg_val_count buf n reg val h
  have hc2 := sscanf_reg_count buf n2 reg2 h2
  have hp : ¬ (n % 256 = 2) := by omega
  have hp2 : ¬ (n2 % 256 = 1) := by omega
  simp [set_adxrs290_iio_reg, h, hp, h2, hp2]

/-- A write through the handler linked with any library either leaves the cursor
or is a bare-address write that passed the range check. -/
theorem set_reg_with_cursor (lib : sscanf_impl) (buf : List Char) (len : Nat) (st : reg_state) :
    ((set_adxrs290_iio_reg_with lib buf len st).2.current_direct_reg = st.current_direct_reg ∧
      ∀ a, RegAccess.read a ∈ (set_adxrs290_iio_reg_with lib buf len st).2.log →
        RegAccess.read a ∈ st.log) ∨
    ((set_adxrs290_iio_reg_with lib buf len st).1 = (len : Int) ∧
      (lib.reg_val buf).1 % 256 ≠ 2 ∧ (lib.reg buf).1 % 256 = 1 ∧
      (lib.reg buf).2 ≤ MAX_REG_ADDR ∧
      (set_adxrs290_iio_reg_with lib buf len st).2
        = { st with current_direct_reg := (lib.reg buf).2 }) := by
  by_cases h2 : (lib.reg_val buf).1 % 256 = 2
  · by_cases hr : (lib.reg_val buf).2.1 > MAX_REG_ADDR
    · have hv : set_adxrs290_iio_reg_with lib buf len st = (-EINVAL, st) := by
        unfold set_adxrs290_iio_reg_with
        simp only [h2, hr, if_true]
      rw [hv]
      exact Or.inl ⟨rfl, fun a ha => ha⟩
    · have hv : set_adxrs290_iio_reg_with lib buf len st
          = ((len : Int), adxrs290_reg_write st ((lib.reg_val buf).2.1 % 256)
              ((lib.reg_val buf).2.2 % 256)) := by
        unfold set_adxrs290_iio_reg_with
        simp only [h2, hr, if_true, if_false]
      rw [hv]
      refine Or.inl ⟨rfl, ?_⟩
      intro a ha
      simp only [adxrs290_reg_write, List.mem_append, List.mem_singleton] at ha
      rcases ha with ha | ha
      · exact ha
      · cases ha
  · by_cases h1 : (lib.reg buf).1 % 256 = 1
    · by_cases hr : (lib.reg buf).2 > MAX_REG_ADDR
      · have hv : set_adxrs290_iio_reg_with lib buf len st = (-EINVAL, st) := by
          unfold set_adxrs290_iio_reg_with
          simp only [h2, h1, hr, if_true, if_false]
        rw [hv]
        exact Or.inl ⟨rfl, fun a ha => ha⟩
      · have hle : (lib.reg buf).2 ≤ MAX_REG_ADDR := by omega
        have h256 : (lib.reg buf).2 % 256 = (lib.reg buf).2 := by
          unfold MAX_REG_ADDR at hle
          omega
        have hv : set_adxrs290_iio_reg_with lib buf len st
            = ((len : Int), { st with current_direct_reg := (lib.reg buf).2 }) := by
          unfold set_adxrs290_iio_reg_with
          simp only [h2, h1, hr, if_true, if_false, h256]
        rw [hv]
        exact Or.inr ⟨rfl, h2, h1, hle, rfl⟩
    · have hv : set_adxrs290_iio_reg_with lib buf len st = (-EINVAL, st) := by
        unfold set_adxrs290_iio_reg_with
        simp only [h2, h1, if_false]
      rw [hv]
      exact Or.inl ⟨rfl, fun a ha => ha⟩

/-- The requests, to handlers linked with any library, keep the cursor and every
register read within `MAX_REG_ADDR`. -/
theorem reg_requests_run_with_invariant (lib : sscanf_impl) :
    ∀ (ops : List RegRequest) (s : reg_state),
      s.current_direct_reg ≤ MAX_REG_ADDR →
      (∀ a, RegAccess.read a ∈ s.log → a ≤ MAX_REG_ADDR) →
      (reg_requests_run_with lib ops s).current_direct_reg ≤ MAX_REG_ADDR ∧
      (∀ a, RegAccess.read a ∈ (reg_requests_run_with lib ops s).log → a ≤ MAX_REG_ADDR) := by
  intro ops
  induction ops with
  | nil => intro s hc hl; exact ⟨hc, hl⟩
  | cons r rs ih =>
    intro s hc hl
    show (reg_requests_run_with lib rs (reg_request_step_with lib s r)).current_direct_reg
        ≤ MAX_REG_ADDR ∧ _
    apply ih
    · cases r with
      | read len => exact hc
      | write buf len =>
        show (set_adxrs290_iio_reg_with lib buf len s).2.current_direct_reg ≤ MAX_REG_ADDR
        rcases set_reg_with_cursor lib buf len s with ⟨h, _⟩ | ⟨_, _, _, hle, h⟩
        · rw [h]; exact hc
        · rw [h]; exact hle
    · intro a ha
      cases r with
      | read len =>
        simp only [reg_request_step_with, get_adxrs290_iio_reg, adxrs290_reg_read,
          List.mem_append, List.mem_singleton, RegAccess.read.injEq] at ha
        rcases ha with ha | ha
        · exact hl a ha
        · rw [ha]; exact hc
      | write buf len =>
        have ha' : RegAccess.read a ∈ (set_adxrs290_iio_reg_with lib buf len s).2.log := ha
        rcases set_reg_with_cursor lib buf len s with ⟨_, h⟩ | ⟨_, _, _, _, h⟩
        · exact hl a (h a ha')
        · rw [h] at ha'
          exact hl a ha'

/-- Where C defines both calls of `sscanf`, the handler linked with a library
that follows C does what the handler `set_adxrs290_iio_reg` does. -/
theorem set_reg_with_std (ub : sscanf_impl) (buf : List Char) (len : Nat) (st : reg_state)
    (r : Int × reg_state) (h : set_adxrs290_iio_reg buf len st = some r) :
    set_adxrs290_iio_reg_with (sscanf_std ub) buf len st = r := by
  unfold set_adxrs290_iio_reg at h
  cases h1 : sscanf_reg_val buf with
  | none => simp [h1] at h
  | some t =>
    obtain ⟨n, reg, val⟩ := t
    have e1 : (sscanf_std ub).reg_val buf = (n, reg, val) := by
      simp only [sscanf_std, h1, Option.getD_some]
    simp only [h1] at h
    unfold set_adxrs290_iio_reg_with
    simp only [e1]
    by_cases hn : n % 256 = 2
    · simp only [hn, if_true] at h ⊢
      by_cases hr : reg > MAX_REG_ADDR
      · simp only [hr, if_true, Option.some.injEq] at h ⊢
        exact h
      · simp only [hr, if_false, Option.some.injEq] at h ⊢
        exact h
    · simp only [hn, if_false] at h ⊢
      cases h2 : sscanf_reg buf with
      | none => simp [h2] at h
      | some t2 =>
        obtain ⟨n2, reg2⟩ := t2
        have e2 : (sscanf_std ub).reg buf = (n2, reg2) := by
          simp only [sscanf_std, h2, Option.getD_some]
        simp only [h2] at h
        simp only [e2]
        by_cases hn2 : n2 % 256 = 1
        · simp only [hn2, if_true] at h ⊢
          by_cases hr : reg2 > MAX_REG_ADDR
          · simp only [hr, if_true, Option.some.injEq] at h ⊢
            exact h
          · simp only [hr, if_false, Option.some.injEq] at h ⊢
            exact h
        · simp only [hn2, if_false, Option.some.injEq] at h ⊢
          exact h

/-! ## Theorems on the direct-register handlers -/

/-- C15: a direct-register write whose parsed address exceeds `MAX_REG_ADDR`, in
the two-value form as well as in the bare-address form, returns `-EINVAL` and
leaves the state (registers, cursor, access record) as it was; so does input
that parses in neither form. Examples: `0x20 0x01`, `32`, `abc` and the empty
text. -/
theorem reg_write_out_of_range_is_einval (buf : List Char) (len : Nat) (st : reg_state) :
    (∀ reg val, sscanf_reg_val buf = some (2, reg, val) → MAX_REG_ADDR < reg →
      set_adxrs290_iio_reg buf len st = some (-EINVAL, st)) ∧
    (∀ n reg val reg2, sscanf_reg_val buf = some (n, reg, val) → n ≠ 2 →
      sscanf_reg buf = some (1, reg2) → MAX_REG_ADDR < reg2 →
      set_adxrs290_iio_reg buf len st = some (-EINVAL, st)) ∧
    (∀ n n2 reg val reg2, sscanf_reg_val buf = some (n, reg, val) → n ≠ 2 →
      sscanf_reg buf = some (n2, reg2) → n2 ≠ 1 →
      set_adxrs290_iio_reg buf len st = some (-EINVAL, st)) ∧
    set_adxrs290_iio_reg ['0', 'x', '2', '0', ' ', '0', 'x', '0', '1'] len st
      = some (-EINVAL, st) ∧
    set_adxrs290_iio_reg ['3', '2'] len st = some (-EINVAL, st) ∧
    set_adxrs290_iio_reg ['a', 'b', 'c'] len st = some (-EINVAL, st) ∧
    set_adxrs290_iio_reg [] len st = some (-EINVAL, st) ∧
    -EINVAL = -22 := by
  refine ⟨?_, ?_, ?_, ?_, ?_, ?_, ?_, by decide⟩
  · intro reg val h hr
    exact set_reg_two_values_einval buf len st reg val h hr
  · intro n reg val reg2 h hn h2 hr
    exact set_reg_bare_einval buf len st n reg val reg2 h hn h2 hr
  · intro n n2 reg val reg2 h hn h2 hn2
    exact set_reg_unparsed buf len st n n2 reg val reg2 h hn h2 hn2
  · exact set_reg_two_values_einval _ len st 32 1 (by decide) (by decide)
  · exact set_reg_bare_einval _ len st 0 0 0 32 (by decide) (by decide) (by decide) (by decide)
  · exact set_reg_unparsed _ len st 0 0 0 0 0 (by decide) (by decide) (by decide) (by decide)
  · exact set_reg_unparsed _ len st (-1) (-1) 0 0 0 (by decide) (by decide) (by decide)
      (by decide)

/-- C16: over a register store in which a read returns the last value written,
a two-value write that parses as `(a, v)` with `a ≤ 0x12` returns `len`, stores
`v & 0xFF` in register `a` alone and leaves the cursor; a bare-address write
that parses as `a` returns `len`, sets the cursor to `a` and touches no
register; a direct-register read after both returns the decimal text of
`v & 0xFF`. -/
theorem reg_write_select_read (buf1 buf2 : List Char) (len1 len2 len3 : Nat) (st : reg_state)
    (a v : Nat) (n : Int) (reg0 val0 : Nat)
    (h1 : sscanf_reg_val buf1 = some (2, a, v)) (ha : a ≤ MAX_REG_ADDR)
    (h2 : sscanf_reg_val buf2 = some (n, reg0, val0)) (hn : n ≠ 2)
    (h3 : sscanf_reg buf2 = some (1, a)) :
    ∃ st1 st2,
      set_adxrs290_iio_reg buf1 len1 st = some ((len1 : Int), st1) ∧
      st1.regs a = v % 256 ∧ (∀ b, b ≠ a → st1.regs b = st.regs b) ∧
      st1.current_direct_reg = st.current_direct_reg ∧
      st1.log = st.log ++ [RegAccess.write a (v % 256)] ∧
      set_adxrs290_iio_reg buf2 len2 st1 = some ((len2 : Int), st2) ∧
      st2.current_direct_reg = a ∧ st2.regs = st1.regs ∧ st2.log = st1.log ∧
      (get_adxrs290_iio_reg len3 st2).1 = snprintf len3 (fmt_d ((v % 256 : Nat) : Int)) ∧
      (get_adxrs290_iio_reg len3 st2).2.log = st2.log ++ [RegAccess.read a] := by
  have ha256 : a % 256 = a := by
    unfold MAX_REG_ADDR at ha
    omega
  refine ⟨adxrs290_reg_write st (a % 256) (v % 256),
    { adxrs290_reg_write st (a % 256) (v % 256) with current_direct_reg := a % 256 },
    set_reg_two_values buf1 len1 st a v h1 ha, ?_, ?_, rfl, ?_,
    set_reg_bare buf2 len2 _ n reg0 val0 a h2 hn h3 ha, ha256, rfl, rfl, ?_, ?_⟩
  · simp [adxrs290_reg_write, ha256]
  · intro b hb
    simp [adxrs290_reg_write, ha256, hb]
  · simp [adxrs290_reg_write, ha256]
  · simp [get_adxrs290_iio_reg, adxrs290_reg_read, adxrs290_reg_write, ha256]
  · simp [get_adxrs290_iio_reg, adxrs290_reg_read, adxrs290_reg_write, ha256]

/-- Witness of C16: the write `0x05 0x7F`, then the selection `5`, then a read
that returns `127`. -/
theorem reg_write_select_read_witness :
    sscanf_reg_val ['0', 'x', '0', '5', ' ', '0', 'x', '7', 'F'] = some (2, 5, 127) ∧
    sscanf_reg_val ['5'] = some (0, 0, 0) ∧ sscanf_reg ['5'] = some (1, 5) ∧
    (∃ st1 st2,
      set_adxrs290_iio_reg ['0', 'x', '0', '5', ' ', '0', 'x', '7', 'F'] 9
          (reg_state_init (fun _ => 0)) = some (9, st1) ∧
      set_adxrs290_iio_reg ['5'] 1 st1 = some (1, st2) ∧
      (get_adxrs290_iio_reg 16 st2).1 = (3, some ['1', '2', '7'])) := by
  obtain ⟨st1, st2, e1, _, _, _, _, e2, _, _, _, e3, _⟩ :=
    reg_write_select_read ['0', 'x', '0', '5', ' ', '0', 'x', '7', 'F'] ['5'] 9 1 16
      (reg_state_init (fun _ => 0)) 5 127 0 0 0 (by decide) (by decide) (by decide)
      (by decide) (by decide)
  exact ⟨by decide, by decide, by decide, st1, st2, e1, e2, by rw [e3]; decide⟩

/-- C19: whatever the `sscanf` of the C library returns and stores, on defined and
on undefined input alike, in every state reached from the initial state
(cursor 0) by a sequence of direct-register reads and writes with arbitrary
texts the cursor `current_direct_reg` is at most `MAX_REG_ADDR = 0x12` and every
register read made so far addressed a register up to `MAX_REG_ADDR`; a read
never changes the cursor, and a write that changes it is a bare-address write
that passed the range check and returns `len`: it sets the cursor to the parsed
address and touches nothing else. Where C defines the two calls of `sscanf`
the handler does what `set_adxrs290_iio_reg` does. Example: after `0x05 0x7F`,
`5`, a read, the numeral `99999999999` that does not fit an `unsigned int`
(stored modulo `2^32` by the sample library and rejected), the rejected `200`
and a second read, the cursor is 5 and the two reads addressed register 5; the
numeral `4294967301` stored modulo `2^32` selects register 5. -/
theorem direct_reg_cursor_in_range (lib : sscanf_impl) (regs : Nat → Nat)
    (ops : List RegRequest) :
    (reg_requests_run_with lib ops (reg_state_init regs)).current_direct_reg ≤ MAX_REG_ADDR ∧
    (∀ a, RegAccess.read a ∈ (reg_requests_run_with lib ops (reg_state_init regs)).log →
      a ≤ MAX_REG_ADDR) ∧
    MAX_REG_ADDR = 0x12 ∧
    (∀ (s : reg_state) (len : Nat),
      (get_adxrs290_iio_reg len s).2.current_direct_reg = s.current_direct_reg ∧
      (get_adxrs290_iio_reg len s).2.log = s.log ++ [RegAccess.read s.current_direct_reg]) ∧
    (∀ (s : reg_state) (buf : List Char) (len : Nat),
      (set_adxrs290_iio_reg_with lib buf len s).2.current_direct_reg ≠ s.current_direct_reg →
      (set_adxrs290_iio_reg_with lib buf len s).1 = (len : Int) ∧
      (lib.reg_val buf).1 % 256 ≠ 2 ∧ (lib.reg buf).1 % 256 = 1 ∧
      (lib.reg buf).2 ≤ MAX_REG_ADDR ∧
      (set_adxrs290_iio_reg_with lib buf len s).2
        = { s with current_direct_reg := (lib.reg buf).2 }) ∧
    (∀ (s : reg_state) (buf : List Char) (len : Nat) (r : Int × reg_state),
      set_adxrs290_iio_reg buf len s = some r →
      set_adxrs290_iio_reg_with (sscanf_std lib) buf len s = r) ∧
    sscanf_reg ['9', '9', '9', '9', '9', '9', '9', '9', '9', '9', '9'] = none ∧
    (fun (s : reg_state) => (s.current_direct_reg, s.log))
      (reg_requests_run_with (sscanf_std sscanf_wrap)
        [RegRequest.write ['0', 'x', '0', '5', ' ', '0', 'x', '7', 'F'] 9,
         RegRequest.write ['5'] 1, RegRequest.read 16,
         RegRequest.write ['9', '9', '9', '9', '9', '9', '9', '9', '9', '9', '9'] 11,
         RegRequest.write ['2', '0', '0'] 3, RegRequest.read 16]
        (reg_state_init (fun _ => 0)))
      = (5, [RegAccess.write 5 127, RegAccess.read 5, RegAccess.read 5]) ∧
    (set_adxrs290_iio_reg_with (sscanf_std sscanf_wrap)
        ['9', '9', '9', '9', '9', '9', '9', '9', '9', '9', '9'] 11
        (reg_state_init (fun _ => 0))).1 = -EINVAL ∧
    (fun (r : Int × reg_state) => (r.1, r.2.current_direct_reg, r.2.log))
      (set_adxrs290_iio_reg_with (sscanf_std sscanf_wrap)
        ['4', '2', '9', '4', '9', '6', '7', '3', '0', '1'] 10 (reg_state_init (fun _ => 0)))
      = (10, 5, []) := by
  have hinv := reg_requests_run_with_invariant lib ops (reg_state_init regs)
    (by simp [reg_state_init, MAX_REG_ADDR]) (by simp [reg_state_init])
  refine ⟨hinv.1, hinv.2, rfl, fun s len => ⟨rfl, rfl⟩, ?_,
    fun s buf len r h => set_reg_with_std lib buf len s r h,
    by decide, by decide, by decide, by decide⟩
  intro s buf len hne
  rcases set_reg_with_cursor lib buf len s with ⟨h, _⟩ | h
  · exact absurd h hne
  · exact h

/-! ## Further theorems on the frequency tables and the cutoff handlers -/

/-- C17: on the non-numeric text `abc`, for which `strtof` yields 0, the
high-pass set handler does not fail: it writes the filter index 0 and returns
`len`, as it does for every text that `strtof` turns into 0; the low-pass
handler returns `FAILURE` and writes nothing. -/
theorem hpf_accepts_non_numeric_text (len : Nat) :
    strtof ['a', 'b', 'c'] = F32.fin 0 1 ∧
    set_adxrs290_iio_ch_hpf ['a', 'b', 'c'] len
      = some ((len : Int), [HwCall.adxrs290_set_hpf 0]) ∧
    set_adxrs290_iio_ch_lpf ['a', 'b', 'c'] len = some (FAILURE, []) ∧
    (∀ buf, strtof buf = F32.fin 0 1 →
      set_adxrs290_iio_ch_hpf buf len = some ((len : Int), [HwCall.adxrs290_set_hpf 0]) ∧
      set_adxrs290_iio_ch_lpf buf len = some (FAILURE, [])) := by
  have key : ∀ buf, strtof buf = F32.fin 0 1 →
      set_adxrs290_iio_ch_hpf buf len = some ((len : Int), [HwCall.adxrs290_set_hpf 0]) ∧
      set_adxrs290_iio_ch_lpf buf len = some (FAILURE, []) := by
    intro buf hb
    unfold set_adxrs290_iio_ch_hpf set_adxrs290_iio_ch_lpf
    rw [hb]
    exact ⟨set_hpf_value_of_scan _ _ _ (by decide), set_lpf_value_of_scan_none _ _ (by decide)⟩
  exact ⟨by decide, (key _ (by decide)).1, (key _ (by decide)).2, key⟩

/-- C18: the low-pass table has 8 entries and the high-pass table 11; every
fractional field lies in `[0, 999999]`; by physical value the low-pass table is
strictly descending and the high-pass table strictly ascending; no entry occurs
twice, so equal entries have equal indices. -/
theorem frequency_tables_are_ordered :
    adxrs290_lpf_3db_freq_hz_table.length = 8 ∧
    adxrs290_hpf_3db_freq_hz_table.length = 11 ∧
    (∀ e, e ∈ adxrs290_lpf_3db_freq_hz_table → 0 ≤ e.2 ∧ e.2 ≤ 999999) ∧
    (∀ e, e ∈ adxrs290_hpf_3db_freq_hz_table → 0 ≤ e.2 ∧ e.2 ≤ 999999) ∧
    (∀ i, i < 8 → ∀ j, j < 8 → i < j →
      entry_micro_hz (adxrs290_lpf_3db_freq_hz_table.getD j (0, 0))
        < entry_micro_hz (adxrs290_lpf_3db_freq_hz_table.getD i (0, 0))) ∧
    (∀ i, i < 11 → ∀ j, j < 11 → i < j →
      entry_micro_hz (adxrs290_hpf_3db_freq_hz_table.getD i (0, 0))
        < entry_micro_hz (adxrs290_hpf_3db_freq_hz_table.getD j (0, 0))) ∧
    adxrs290_lpf_3db_freq_hz_table.Nodup ∧
    adxrs290_hpf_3db_freq_hz_table.Nodup ∧
    (∀ i, i < 8 → ∀ j, j < 8 →
      adxrs290_lpf_3db_freq_hz_table.get? i = adxrs290_lpf_3db_freq_hz_table.get? j → i = j) ∧
    (∀ i, i < 11 → ∀ j, j < 11 →
      adxrs290_hpf_3db_freq_hz_table.get? i = adxrs290_hpf_3db_freq_hz_table.get? j → i = j) := by
  refine ⟨rfl, rfl, by decide, by decide, by decide, by decide, by decide, by decide,
    by decide, by decide⟩

/-! ## Further lemmas on the bulk packer -/

theorem bytes_extract (b0 b1 b2 b3 : Nat) (h0 : b0 < 256) (h1 : b1 < 256) (h2 : b2 < 256)
    (h3 : b3 < 256) :
    (b0 * 16777216 + b1 * 65536 + b2 * 256 + b3) % 256 = b3 ∧
    (b0 * 16777216 + b1 * 65536 + b2 * 256 + b3) / 256 % 256 = b2 ∧
    (b0 * 16777216 + b1 * 65536 + b2 * 256 + b3) / 65536 % 256 = b1 ∧
    (b0 * 16777216 + b1 * 65536 + b2 * 256 + b3) / 16777216 % 256 = b0 := by
  refine ⟨by omega, by omega, by omega, by omega⟩

/-- The bytes of a swapped word are the bytes of the word in reverse order. -/
theorem swap_bytes (v : Nat) :
    Xil_EndianSwap32 v % 256 = v / 16777216 % 256 ∧
    Xil_EndianSwap32 v / 256 % 256 = v / 65536 % 256 ∧
    Xil_EndianSwap32 v / 65536 % 256 = v / 256 % 256 ∧
    Xil_EndianSwap32 v / 16777216 % 256 = v % 256 := by
  have h := bytes_extract (v % 256) (v / 256 % 256) (v / 65536 % 256) (v / 16777216 % 256)
    (Nat.mod_lt _ (by norm_num)) (Nat.mod_lt _ (by norm_num)) (Nat.mod_lt _ (by norm_num))
    (Nat.mod_lt _ (by norm_num))
  unfold Xil_EndianSwap32
  simp only [Nat.reducePow]
  exact h

/-- The bytes stored by a little-endian host for a swapped word are the bytes of
the word, most significant first. -/
theorem store32_swap_little_endian (m : Mem) (off : Int) (v k : Nat) (hk : k < 4) :
    store32 false m off (Xil_EndianSwap32 v) (off + (k : Int)) = v / 2 ^ (8 * (3 - k)) % 256 := by
  have hcond : off ≤ off + (k : Int) ∧ off + (k : Int) < off + 4 := by omega
  have hidx : (off + (k : Int) - off).toNat = k := by omega
  have h := swap_bytes v
  simp only [store32, hcond, and_self, if_true, hidx, Bool.false_eq_true, if_false]
  interval_cases k <;> norm_num <;> omega

/-- The bytes stored by a big-endian host for a swapped word are the bytes of the
word, least significant first. -/
theorem store32_swap_big_endian (m : Mem) (off : Int) (v k : Nat) (hk : k < 4) :
    store32 true m off (Xil_EndianSwap32 v) (off + (k : Int)) = v / 2 ^ (8 * k) % 256 := by
  have hcond : off ≤ off + (k : Int) ∧ off + (k : Int) < off + 4 := by omega
  have hidx : (off + (k : Int) - off).toNat = k := by omega
  have h := swap_bytes v
  simp only [store32, hcond, and_self, if_true, hidx]
  interval_cases k <;> norm_num <;> omega

theorem store32_outside (be : Bool) (m : Mem) (off : Int) (v : Nat) (a : Int)
    (h : a < off ∨ off + 4 ≤ a) : store32 be m off v a = m a := by
  have hcond : ¬ (off ≤ a ∧ a < off + 4) := by omega
  simp only [store32, hcond, if_false]

theorem sprintf_s_outside (dst : Mem) (off : Int) (src : Mem) (n : Nat) (a : Int)
    (h : a < off ∨ off + (n : Int) < a) : sprintf_s dst off src n a = dst a := by
  have h1 : ¬ (off ≤ a ∧ a < off + (n : Int)) := by omega
  have h2 : ¬ (a = off + (n : Int)) := by omega
  simp only [sprintf_s, h1, h2, if_false]

theorem sprintf_s_inside (dst : Mem) (off : Int) (src : Mem) (n k : Nat) (hk : k < n) :
    sprintf_s dst off src n (off + (k : Int)) = src (k : Int) := by
  have h1 : off ≤ off + (k : Int) ∧ off + (k : Int) < off + (n : Int) := by omega
  have h2 : off + (k : Int) - off = (k : Int) := by omega
  simp only [sprintf_s, h1, and_self, if_true, h2]

/-- The 32-bit word of a value in the 32-bit range denotes that value. -/
theorem wrapS_32_of_word (x : Int) (h1 : -2147483648 ≤ x) (h2 : x ≤ 2147483647) :
    wrapS 32 (((x % 2 ^ 32).toNat : Nat) : Int) = x := by
  have hnn : 0 ≤ x % 2 ^ 32 := Int.emod_nonneg x (by norm_num)
  rw [Int.toNat_of_nonneg hnn]
  unfold wrapS
  norm_num
  split_ifs <;> omega

theorem word_lt (x : Int) : (x % 2 ^ 32).toNat < 4294967296 := by
  have hnn : 0 ≤ x % 2 ^ 32 := Int.emod_nonneg x (by norm_num)
  have hlt : x % 2 ^ 32 < 2 ^ 32 := Int.emod_lt_of_pos x (by norm_num)
  omega

/-- A word is the sum of its four bytes. -/
theorem word_of_bytes (v : Nat) (hv : v < 4294967296) :
    (v / 16777216 % 256) * 16777216 + (v / 65536 % 256) * 65536
      + (v / 256 % 256) * 256 + v % 256 = v := by
  omega

/-- A scan that ends has found the first NUL, inside the scanned part. -/
theorem text_length_some (m : Mem) :
    ∀ (fuel k n : Nat), text_length m fuel k = some n →
      k ≤ n ∧ n < k + fuel ∧ m (n : Int) = 0 := by
  intro fuel
  induction fuel with
  | zero => intro k n h; simp [text_length] at h
  | succ f ih =>
    intro k n h
    unfold text_length at h
    by_cases hk : m (k : Int) = 0
    · simp only [hk, if_true, Option.some.injEq] at h
      subst h
      exact ⟨le_refl _, by omega, hk⟩
    · simp only [hk, if_false] at h
      have := ih (k + 1) n h
      omega

theorem wrapS_16_add_four (j : Int) (h1 : -32768 ≤ j) (h2 : j ≤ 32767) :
    wrapS 16 (j + 4) = j + 4 ∨ wrapS 16 (j + 4) = j + 4 - 65536 := by
  unfold wrapS
  norm_num
  split_ifs <;> omega

/-- The buffer after one iteration of the bulk packer holds, at the four offsets
of the length field, the bytes stored for the swapped length. -/
theorem read_all_attr_step_length_field {σ : Type} (be : Bool) (len : Nat) (ch : channel_info)
    (e : attrtibute_map σ) (i : Nat) (s s1 : BulkState σ)
    (hj1 : -32768 ≤ s.j) (hj2 : s.j ≤ 32767)
    (hstep : read_all_attr_step be len ch e i s = some s1) (k : Nat) (hk : k < 4) :
    s1.buf (s.j + (k : Int))
      = store32 be s.buf s.j
          (Xil_EndianSwap32 (wrapS 16 (e.exec s.local_buf len ch s.st).1 % 2 ^ 32).toNat)
          (s.j + (k : Int)) := by
  unfold read_all_attr_step at hstep
  by_cases h : 0 ≤ wrapS 16 (e.exec s.local_buf len ch s.st).1
  · cases htl : text_length (e.exec s.local_buf len ch s.st).2.1 0x1000 0 with
    | none => simp [h, htl] at hstep
    | some n =>
      simp only [h, htl, if_true, Option.some.injEq] at hstep
      subst hstep
      have hn := text_length_some _ _ _ _ htl
      apply sprintf_s_outside
      rcases wrapS_16_add_four s.j hj1 hj2 with hw | hw <;> rw [hw] <;> omega
  · simp only [h, if_false, Option.some.injEq] at hstep
    subst hstep
    rfl

/-- C11 (counterexample): on a big-endian host the length 3 of the first record
is stored as the bytes 3, 0, 0, 0, while its big-endian encoding is 0, 0, 0, 3;
and a handler result of 65539 is stored as the length 3. -/
theorem length_field_follows_host_order :
    (read_all_attr true zero_mem zero_mem 16 ⟨0, false⟩ sample_map ()).map
        (fun o => [o.buf 0, o.buf 1, o.buf 2, o.buf 3]) = some [3, 0, 0, 0] ∧
    [be32_byte 3 0, be32_byte 3 1, be32_byte 3 2, be32_byte 3 3] = [0, 0, 0, 3] ∧
    wrapS 16 65539 = 3 ∧
    [be32_byte 65539 0, be32_byte 65539 1, be32_byte 65539 2, be32_byte 65539 3]
      = [0, 1, 0, 3] := by
  decide

/-- C11 (amended): for every handler result, negative or not, the 4 bytes that an
iteration of `read_all_attr` leaves at the record's start encode `attr_length`,
the result converted to `int16_t`, as a two's-complement 32-bit number: on a
little-endian host most significant byte first (big-endian), on a big-endian
host least significant byte first. -/
theorem length_field_byte_order {σ : Type} (host_big_endian : Bool) (len : Nat)
    (ch : channel_info) (e : attrtibute_map σ) (i : Nat) (s s1 : BulkState σ)
    (hj1 : -32768 ≤ s.j) (hj2 : s.j ≤ 32767)
    (hstep : read_all_attr_step host_big_endian len ch e i s = some s1) :
    (∀ k : Nat, k < 4 → s1.buf (s.j + (k : Int))
      = be32_byte (wrapS 16 (e.exec s.local_buf len ch s.st).1)
          (if host_big_endian then 3 - k else k)) ∧
    (-32768 ≤ (e.exec s.local_buf len ch s.st).1 → (e.exec s.local_buf len ch s.st).1 ≤ 32767 →
      wrapS 16 (e.exec s.local_buf len ch s.st).1 = (e.exec s.local_buf len ch s.st).1) := by
  refine ⟨?_, fun h1 h2 => wrapS_16_of_range _ h1 h2⟩
  intro k hk
  rw [read_all_attr_step_length_field host_big_endian len ch e i s s1 hj1 hj2 hstep k hk]
  unfold be32_byte
  cases host_big_endian with
  | false =>
    rw [store32_swap_little_endian _ _ _ k hk]
    simp
  | true =>
    rw [store32_swap_big_endian _ _ _ k hk]
    have h3 : 3 - (3 - k) = k := by omega
    simp [h3]

/-- Witness of C11 (amended): the first iteration on the sample table, on a
little-endian host, stores the bytes 0, 0, 0, 3. -/
theorem length_field_byte_order_witness :
    ∃ s1, read_all_attr_step false 16 ⟨0, false⟩ (text_attr "raw" ['5', '6', '4']) 0
        ⟨0, zero_mem, zero_mem, (), [], []⟩ = some s1 ∧
      (∀ k : Nat, k < 4 → s1.buf (0 + (k : Int)) = be32_byte (wrapS 16 3) k) ∧
      [be32_byte (wrapS 16 3) 0, be32_byte (wrapS 16 3) 1, be32_byte (wrapS 16 3) 2,
        be32_byte (wrapS 16 3) 3] = [0, 0, 0, 3] := by
  cases h : read_all_attr_step false 16 ⟨0, false⟩ (text_attr "raw" ['5', '6', '4']) 0
      ⟨0, zero_mem, zero_mem, (), [], []⟩ with
  | none =>
    have hd : (read_all_attr_step false 16 ⟨0, false⟩ (text_attr "raw" ['5', '6', '4']) 0
        ⟨0, zero_mem, zero_mem, (), [], []⟩).isSome = true := by decide
    rw [h] at hd
    cases hd
  | some s1 =>
    exact ⟨s1, rfl,
      (length_field_byte_order false 16 ⟨0, false⟩ (text_attr "raw" ['5', '6', '4']) 0
        ⟨0, zero_mem, zero_mem, (), [], []⟩ s1 (by decide) (by decide) h).1,
      by decide⟩

theorem be32_at_congr (m m' : Mem) (off : Int)
    (h : ∀ k : Nat, k < 4 → m (off + (k : Int)) = m' (off + (k : Int))) :
    be32_at m off = be32_at m' off := by
  have h0 := h 0 (by omega)
  have h1 := h 1 (by omega)
  have h2 := h 2 (by omega)
  have h3 := h 3 (by omega)
  simp only [Nat.cast_zero, add_zero, Nat.cast_one, Nat.cast_ofNat] at h0 h1 h2 h3
  unfold be32_at
  rw [h0, h1, h2, h3]

theorem bytes_at_congr (m m' : Mem) (off off' : Int) (n : Nat)
    (h : ∀ k : Nat, k < n → m (off + (k : Int)) = m' (off' + (k : Int))) :
    bytes_at m off n = bytes_at m' off' n := by
  unfold bytes_at
  apply List.map_congr_left
  intro k hk
  exact h k (List.mem_range.mp hk)

/-- The length field stored by a little-endian host decodes to the length. -/
theorem be32_at_store32 (m : Mem) (off : Int) (x : Int) (h1 : -2147483648 ≤ x)
    (h2 : x ≤ 2147483647) :
    be32_at (store32 false m off (Xil_EndianSwap32 (x % 2 ^ 32).toNat)) off = x := by
  have hv := word_lt x
  have hb := word_of_bytes (x % 2 ^ 32).toNat hv
  have e0 := store32_swap_little_endian m off (x % 2 ^ 32).toNat 0 (by omega)
  have e1 := store32_swap_little_endian m off (x % 2 ^ 32).toNat 1 (by omega)
  have e2 := store32_swap_little_endian m off (x % 2 ^ 32).toNat 2 (by omega)
  have e3 := store32_swap_little_endian m off (x % 2 ^ 32).toNat 3 (by omega)
  simp only [Nat.cast_zero, add_zero, Nat.cast_one, Nat.cast_ofNat, Nat.reduceSub,
    Nat.reduceMul, Nat.reducePow, Nat.div_one] at e0 e1 e2 e3
  unfold be32_at
  rw [e0, e1, e2, e3]
  simp only [Nat.reducePow]
  rw [hb]
  exact wrapS_32_of_word x h1 h2

/-- One iteration of the bulk packer on a little-endian host, for a handler that
returns a failure or the length of its text, while the cursor stays in range:
the record it leaves. -/
theorem read_all_attr_step_record {σ : Type} (len : Nat) (ch : channel_info)
    (e : attrtibute_map σ) (i : Nat) (s : BulkState σ)
    (hj0 : 0 ≤ s.j) (hL : -32768 ≤ (e.exec s.local_buf len ch s.st).1)
    (hsum : s.j + record_size (e.exec s.local_buf len ch s.st).1 ≤ 32767)
    (htext : 0 ≤ (e.exec s.local_buf len ch s.st).1 →
      text_length (e.exec s.local_buf len ch s.st).2.1 0x1000 0
        = some (e.exec s.local_buf len ch s.st).1.toNat) :
    ∃ s1, read_all_attr_step false len ch e i s = some s1 ∧
      s1.j = s.j + record_size (e.exec s.local_buf len ch s.st).1 ∧
      s1.local_buf = (e.exec s.local_buf len ch s.st).2.1 ∧
      s1.st = (e.exec s.local_buf len ch s.st).2.2 ∧
      s1.calls = s.calls ++ [(i, (e.exec s.local_buf len ch s.st).1)] ∧
      (∀ a, a < s.j → s1.buf a = s.buf a) ∧
      be32_at s1.buf s.j = (e.exec s.local_buf len ch s.st).1 ∧
      (0 ≤ (e.exec s.local_buf len ch s.st).1 →
        bytes_at s1.buf (s.j + 4) (e.exec s.local_buf len ch s.st).1.toNat
          = bytes_at (e.exec s.local_buf len ch s.st).2.1 0
              (e.exec s.local_buf len ch s.st).1.toNat) := by
  have hsz := record_size_ge (e.exec s.local_buf len ch s.st).1
  have hup : (e.exec s.local_buf len ch s.st).1 ≤ 32767 := by
    by_cases h0 : 0 ≤ (e.exec s.local_buf len ch s.st).1
    · have := text_length_some _ _ _ _ (htext h0)
      omega
    · omega
  have hw : wrapS 16 (e.exec s.local_buf len ch s.st).1 = (e.exec s.local_buf len ch s.st).1 :=
    wrapS_16_of_range _ hL hup
  have hj4 : wrapS 16 (s.j + 4) = s.j + 4 := wrapS_16_of_range _ (by omega) (by omega)
  obtain ⟨s1, hstep, hj, hcalls, _⟩ := read_all_attr_step_spec false len ch e i s
    (by
      intro h0
      rw [hw] at h0
      rw [htext h0]
      simp)
  have hjx := next_cursor_exact s.j _ hj0 hL hup hsum
  refine ⟨s1, hstep, by rw [hj, hjx], ?_⟩
  have hfield : ∀ k : Nat, k < 4 → s1.buf (s.j + (k : Int))
      = store32 false s.buf s.j
          (Xil_EndianSwap32 ((e.exec s.local_buf len ch s.st).1 % 2 ^ 32).toNat)
          (s.j + (k : Int)) := by
    intro k hk
    have := read_all_attr_step_length_field false len ch e i s s1 (by omega) (by omega)
      hstep k hk
    rw [hw] at this
    exact this
  have hbe : be32_at s1.buf s.j = (e.exec s.local_buf len ch s.st).1 := by
    rw [be32_at_congr _ _ _ hfield]
    exact be32_at_store32 _ _ _ (by omega) (by omega)
  unfold read_all_attr_step at hstep
  by_cases h0 : 0 ≤ (e.exec s.local_buf len ch s.st).1
  · simp only [hw, hj4, h0, htext h0, if_true, Option.some.injEq] at hstep
    subst hstep
    refine ⟨rfl, rfl, hcalls, ?_, hbe, ?_⟩
    · intro a ha
      show sprintf_s _ _ _ _ a = s.buf a
      rw [sprintf_s_outside _ _ _ _ _ (by omega), store32_outside _ _ _ _ _ (by omega)]
    · intro _
      apply bytes_at_congr
      intro k hk
      show sprintf_s _ _ _ _ _ = _
      rw [sprintf_s_inside _ _ _ _ _ hk]
      simp
  · simp only [hw, hj4, h0, if_false, Option.some.injEq] at hstep
    subst hstep
    refine ⟨rfl, rfl, hcalls, ?_, hbe, ?_⟩
    · intro a ha
      show store32 _ _ _ _ a = s.buf a
      rw [store32_outside _ _ _ _ _ (by omega)]
    · intro h; exact absurd h h0

theorem total_size_cons (L : Int) (Ls : List Int) :
    total_size (L :: Ls) = record_size L + total_size Ls := by
  simp [total_size]

theorem total_size_ge : ∀ (Ls : List Int), 4 * (Ls.length : Int) ≤ total_size Ls := by
  intro Ls
  induction Ls with
  | nil => simp [total_size]
  | cons L Ls ih =>
    have h := record_size_ge L
    rw [total_size_cons]
    simp only [List.length_cons, Nat.cast_add, Nat.cast_one]
    omega

theorem roundUp4_ge (n : Int) : n ≤ roundUp4 n := by
  unfold roundUp4
  omega

theorem record_size_of_nonneg (L : Int) (h : 0 ≤ L) : record_size L = 4 + roundUp4 L := by
  unfold record_size
  rw [max_eq_left h]

theorem record_size_of_neg (L : Int) (h : ¬ 0 ≤ L) : record_size L = 4 := by
  unfold record_size
  rw [max_eq_right (by omega)]
  rfl

theorem expected_records_length {σ : Type} (len : Nat) (ch : channel_info) :
    ∀ (m : List (attrtibute_map σ)) (scratch : Mem) (st : σ),
      (expected_records len ch m scratch st).length = m.length := by
  intro m
  induction m with
  | nil => intro _ _; rfl
  | cons e rest ih => intro scratch st; simp [expected_records, ih]

theorem map_some_cons {α : Type} (x : α) (X : List α) :
    Option.map (fun rs => x :: rs) (some X) = some (x :: X) := rfl

theorem decode_records_at_end (m : Mem) (total : Int) (fuel : Nat) :
    decode_records m total fuel total = some [] := by
  cases fuel <;> simp [decode_records]

theorem payload_offset_lt (j L i j1 rs ru : Int) (h1 : j1 = j + rs) (h2 : rs = 4 + ru)
    (h3 : L ≤ ru) (h4 : i < L) : j + 4 + i < j1 := by
  omega

theorem decode_records_of_nonneg (m : Mem) (total : Int) (fuel : Nat) (off L : Int)
    (h1 : ¬ (off = total)) (h2 : ¬ (total < off + 4)) (hL : be32_at m off = L) (h0 : 0 ≤ L)
    (h3 : ¬ (total < off + 4 + roundUp4 L)) :
    decode_records m total (fuel + 1) off
      = (decode_records m total fuel (off + 4 + roundUp4 L)).map
          (fun rs => (L, bytes_at m (off + 4) L.toNat) :: rs) := by
  subst hL
  rw [decode_records, if_neg h1, if_neg h2]
  simp only [h0, h3, if_true, if_false]

theorem decode_records_of_neg (m : Mem) (total : Int) (fuel : Nat) (off L : Int)
    (h1 : ¬ (off = total)) (h2 : ¬ (total < off + 4)) (hL : be32_at m off = L)
    (h0 : ¬ (0 ≤ L)) :
    decode_records m total (fuel + 1) off
      = (decode_records m total fuel (off + 4)).map (fun rs => (L, []) :: rs) := by
  subst hL
  rw [decode_records, if_neg h1, if_neg h2]
  simp only [h0, if_false]

/-- The loop of the bulk packer on a little-endian host, for handlers that return
a failure or the length of their text, while the cursor stays in range: every
handler is called once, in order, and the bytes from the start cursor on decode
to what the handlers reported. -/
theorem read_all_attr_loop_decodes {σ : Type} (len : Nat) (ch : channel_info) :
    ∀ (m : List (attrtibute_map σ)) (k : Nat) (s : BulkState σ),
      k + m.length ≤ 32767 → returns_text_length len m → 0 ≤ s.j →
      s.j + total_size ((expected_records len ch m s.local_buf s.st).map Prod.fst) ≤ 32767 →
      ∃ s', read_all_attr_loop false len ch m k s = some s' ∧
        s'.j = s.j + total_size ((expected_records len ch m s.local_buf s.st).map Prod.fst) ∧
        s'.calls = s.calls ++ (List.range' k m.length).zip
          ((expected_records len ch m s.local_buf s.st).map Prod.fst) ∧
        (∀ a, a < s.j → s'.buf a = s.buf a) ∧
        ∀ fuel, m.length ≤ fuel →
          decode_records s'.buf s'.j fuel s.j
            = some (expected_records len ch m s.local_buf s.st) := by
  intro m
  induction m with
  | nil =>
    intro k s _ _ _ _
    refine ⟨s, rfl, by simp [expected_records, total_size], by simp [expected_records],
      fun a _ => rfl, ?_⟩
    intro fuel _
    rw [decode_records_at_end]
    rfl
  | cons e rest ih =>
    intro k s hk hwell hj0 hsum
    have hlen : (e :: rest).length = rest.length + 1 := rfl
    have hexp : expected_records len ch (e :: rest) s.local_buf s.st
        = ((e.exec s.local_buf len ch s.st).1,
            if 0 ≤ (e.exec s.local_buf len ch s.st).1 then
              bytes_at (e.exec s.local_buf len ch s.st).2.1 0
                (e.exec s.local_buf len ch s.st).1.toNat
            else []) ::
          expected_records len ch rest (e.exec s.local_buf len ch s.st).2.1
            (e.exec s.local_buf len ch s.st).2.2 := rfl
    rw [hexp] at hsum ⊢
    simp only [List.map_cons, total_size_cons] at hsum ⊢
    have hw := hwell e (by simp) s.local_buf ch s.st
    have hsz := record_size_ge (e.exec s.local_buf len ch s.st).1
    have htn := total_size_nonneg
      ((expected_records len ch rest (e.exec s.local_buf len ch s.st).2.1
        (e.exec s.local_buf len ch s.st).2.2).map Prod.fst)
    obtain ⟨s1, hstep, hj1, hloc, hst, hcalls, hframe, hbe, hpay⟩ :=
      read_all_attr_step_record len ch e k s hj0 hw.1 (by omega) hw.2
    have hwell' : returns_text_length len rest := fun x hx => hwell x (by simp [hx])
    obtain ⟨s', hloop, hj', hcalls', hframe', hdec⟩ := ih (k + 1) s1 (by omega) hwell'
      (by omega) (by rw [hloc, hst, hj1]; omega)
    rw [hloc, hst] at hj' hcalls' hdec
    have hnot : ¬ (32767 < k + 1) := by omega
    refine ⟨s', ?_, ?_, ?_, ?_, ?_⟩
    · unfold read_all_attr_loop
      rw [hstep]
      simp only [hnot, if_false]
      exact hloop
    · rw [hj', hj1]; omega
    · rw [hcalls', hcalls]
      simp [List.range'_succ]
    · intro a ha
      rw [hframe' a (by omega), hframe a ha]
    · intro fuel hfuel
      obtain ⟨f, rfl⟩ : ∃ f, fuel = f + 1 := ⟨fuel - 1, by omega⟩
      have hbe' : be32_at s'.buf s.j = (e.exec s.local_buf len ch s.st).1 := by
        rw [← hbe]
        apply be32_at_congr
        intro i hi
        exact hframe' _ (by omega)
      have h1 : ¬ (s.j = s'.j) := by omega
      have h2 : ¬ (s'.j < s.j + 4) := by omega
      by_cases h0 : 0 ≤ (e.exec s.local_buf len ch s.st).1
      · have hrs := record_size_of_nonneg _ h0
        have hru := roundUp4_ge (e.exec s.local_buf len ch s.st).1
        have h3 : ¬ (s'.j < s.j + 4 + roundUp4 (e.exec s.local_buf len ch s.st).1) := by omega
        have hoff : s.j + 4 + roundUp4 (e.exec s.local_buf len ch s.st).1 = s1.j := by omega
        have hpay' : bytes_at s'.buf (s.j + 4) (e.exec s.local_buf len ch s.st).1.toNat
            = bytes_at (e.exec s.local_buf len ch s.st).2.1 0
                (e.exec s.local_buf len ch s.st).1.toNat := by
          rw [← hpay h0]
          apply bytes_at_congr
          intro i hi
          exact hframe' _ (payload_offset_lt _ _ _ _ _ _ hj1 hrs hru (Int.lt_toNat.mp hi))
        rw [decode_records_of_nonneg _ _ _ _ _ h1 h2 hbe' h0 h3, hoff, hdec f (by omega),
          hpay', if_pos h0]
        exact map_some_cons _ _
      · have hrs := record_size_of_neg _ h0
        have hoff : s.j + 4 = s1.j := by omega
        rw [decode_records_of_neg _ _ _ _ _ h1 h2 hbe' h0, hoff, hdec f (by omega),
          if_neg h0]
        exact map_some_cons _ _

/-- A scan over non-zero bytes up to a NUL ends at that NUL. -/
theorem text_length_eq (m : Mem) (n : Nat) (hn : m (n : Int) = 0) :
    ∀ (fuel k : Nat), k ≤ n → n < k + fuel →
      (∀ a : Nat, k ≤ a → a < n → m (a : Int) ≠ 0) → text_length m fuel k = some n := by
  intro fuel
  induction fuel with
  | zero => intro k h1 h2 _; omega
  | succ f ih =>
    intro k h1 h2 h3
    unfold text_length
    by_cases hk : k = n
    · subst hk
      simp [hn]
    · have hne := h3 k (le_refl _) (by omega)
      simp only [hne, if_false]
      exact ih (k + 1) (by omega) (by omega) (fun a ha1 ha2 => h3 a (by omega) ha2)

/-- The sample text handlers return the length of the text they leave. -/
theorem text_attr_text_length (name : String) (t : List Char) (ht : t.length < 0x1000)
    (hnz : ∀ c, c ∈ t → c.toNat ≠ 0) (b : Mem) (len : Nat) (c : channel_info) (st : Unit) :
    text_length ((text_attr name t).exec b len c st).2.1 0x1000 0
      = some ((text_attr name t).exec b len c st).1.toNat := by
  have hlen : ((text_attr name t).exec b len c st).1.toNat = t.length := by
    simp [text_attr]
  rw [hlen]
  apply text_length_eq _ t.length _ 0x1000 0 (by omega) (by omega)
  · intro a _ ha
    have hmem : t[a] ∈ t := List.getElem_mem ha
    simp [text_attr, put_text, ha]
    exact hnz _ hmem
  · simp [text_attr, put_text]

theorem sample_map_failing_returns_text_length (len : Nat) :
    returns_text_length len sample_map_failing := by
  intro e he b c st
  simp only [sample_map_failing, List.mem_cons, List.mem_singleton, List.not_mem_nil,
    or_false] at he
  rcases he with h | h | h
  · subst h
    exact ⟨by simp [text_attr], fun _ => text_attr_text_length _ _ (by decide) (by decide) b len c st⟩
  · subst h
    refine ⟨by simp [failing_attr], fun h0 => ?_⟩
    simp [failing_attr] at h0
  · subst h
    exact ⟨by simp [text_attr], fun _ => text_attr_text_length _ _ (by decide) (by decide) b len c st⟩

/-! ## Further theorems on the bulk packer -/

/-- C12 (counterexample): on a big-endian host the bytes that `read_all_attr`
returns for a table with a failing handler in the middle do not decode as a
record stream, although the handlers reported the lengths 3, -22 and 4; and for
nine handlers that report 4000 characters each the returned total is negative
and nothing can be decoded. -/
theorem bulk_stream_unreadable :
    (read_all_attr true zero_mem ff_mem 16 ⟨0, false⟩ sample_map_failing ()).map
        (fun o => (o.ret, o.calls)) = some (20, [(0, 3), (1, -22), (2, 4)]) ∧
    (read_all_attr true zero_mem ff_mem 16 ⟨0, false⟩ sample_map_failing ()).map
        (fun o => decode_records o.buf o.ret o.ret.toNat 0) = some none ∧
    expected_records 16 ⟨0, false⟩ sample_map_failing zero_mem ()
      = [(3, [53, 54, 52]), (-22, []), (4, [49, 48, 48, 48])] ∧
    (read_all_attr false zero_mem ff_mem 16 ⟨0, false⟩ sample_map_long ()).map
        (fun o => (o.ret, decode_records o.buf o.ret o.ret.toNat 0))
      = some (-29500, none) := by
  refine ⟨by decide, by decide, by decide, ?_⟩
  set_option maxRecDepth 100000 in decide

/-- C12 (amended): on a little-endian host, for every table of at most 32767
handlers each of which returns either a failure (not below -32768) or the
length of the text it leaves in the scratch buffer, and as long as the record
sizes add up to at most 32767, `read_all_attr` calls every handler exactly once
in declared order, returns the sum of the record sizes, and the first `returned
total` bytes of its output decode as records to the k-th handler's returned
length and, when it succeeded, its text: a failing handler becomes a
negative-length record without payload and the records after it are intact. -/
theorem bulk_stream_decodes {σ : Type} (stack buf : Mem) (len : Nat) (ch : channel_info)
    (m : List (attrtibute_map σ)) (st : σ)
    (hlen : m.length ≤ 32767) (hwell : returns_text_length len m)
    (htotal : total_size ((expected_records len ch m stack st).map Prod.fst) ≤ 32767) :
    ∃ o, read_all_attr false stack buf len ch m st = some o ∧
      o.calls = (List.range m.length).zip ((expected_records len ch m stack st).map Prod.fst) ∧
      o.calls.map Prod.fst = List.range m.length ∧
      o.ret = total_size ((expected_records len ch m stack st).map Prod.fst) ∧
      decode_records o.buf o.ret o.ret.toNat 0 = some (expected_records len ch m stack st) := by
  obtain ⟨s', hloop, hj, hcalls, _, hdec⟩ :=
    read_all_attr_loop_decodes len ch m 0 ⟨0, buf, stack, st, [], []⟩ (by omega) hwell
      (le_refl _) (by simpa using htotal)
  simp only [zero_add, List.nil_append] at hj hcalls
  have hge := total_size_ge ((expected_records len ch m stack st).map Prod.fst)
  have hl := expected_records_length len ch m stack st
  simp only [List.length_map, hl] at hge
  have hfuel : m.length ≤ s'.j.toNat := by
    rw [hj]
    omega
  refine ⟨⟨s'.j, s'.buf, s'.st, s'.calls, s'.recs⟩, ?_, ?_, ?_, hj, ?_⟩
  · simp [read_all_attr, hloop]
  · show s'.calls = _
    rw [hcalls, List.range_eq_range']
  · show s'.calls.map Prod.fst = _
    rw [hcalls, List.range_eq_range']
    apply List.map_fst_zip
    simp [hl]
  · exact hdec _ hfuel

/-- Witness of C12 (amended): the sample table whose middle handler fails, on a
little-endian host. -/
theorem bulk_stream_decodes_witness :
    sample_map_failing.length ≤ 32767 ∧ returns_text_length 16 sample_map_failing ∧
    total_size ((expected_records 16 ⟨0, false⟩ sample_map_failing zero_mem ()).map Prod.fst)
      = 20 ∧
    (∃ o, read_all_attr false zero_mem ff_mem 16 ⟨0, false⟩ sample_map_failing () = some o ∧
      o.calls = [(0, 3), (1, -22), (2, 4)] ∧ o.ret = 20 ∧
      decode_records o.buf o.ret o.ret.toNat 0
        = some [(3, [53, 54, 52]), (-22, []), (4, [49, 48, 48, 48])]) := by
  obtain ⟨o, h1, h2, _, h4, h5⟩ := bulk_stream_decodes zero_mem ff_mem 16 ⟨0, false⟩
    sample_map_failing () (by decide) (sample_map_failing_returns_text_length 16) (by decide)
  refine ⟨by decide, sample_map_failing_returns_text_length 16, by decide, o, h1, ?_, ?_, ?_⟩
  · rw [h2]; decide
  · rw [h4]; decide
  · rw [h5]; decide

/-! ## The bytes that the bulk packer writes -/

/-- The byte that one iteration of the bulk packer leaves at the new cursor: the
terminator of the payload when the handler succeeded with a length that is a
multiple of 4, the byte that was there otherwise; and no byte beyond the new
cursor or below the old one is changed. -/
theorem read_all_attr_step_frame {σ : Type} (be : Bool) (len : Nat) (ch : channel_info)
    (e : attrtibute_map σ) (i : Nat) (s : BulkState σ)
    (hj0 : 0 ≤ s.j) (hL : -32768 ≤ (e.exec s.local_buf len ch s.st).1)
    (hsum : s.j + record_size (e.exec s.local_buf len ch s.st).1 ≤ 32767)
    (htext : 0 ≤ (e.exec s.local_buf len ch s.st).1 →
      text_length (e.exec s.local_buf len ch s.st).2.1 0x1000 0
        = some (e.exec s.local_buf len ch s.st).1.toNat) :
    ∃ s1, read_all_attr_step be len ch e i s = some s1 ∧
      s1.j = s.j + record_size (e.exec s.local_buf len ch s.st).1 ∧
      s1.local_buf = (e.exec s.local_buf len ch s.st).2.1 ∧
      s1.st = (e.exec s.local_buf len ch s.st).2.2 ∧
      (∀ a, a < s.j ∨ s1.j < a → s1.buf a = s.buf a) ∧
      s1.buf s1.j = (if 0 ≤ (e.exec s.local_buf len ch s.st).1 ∧
          (e.exec s.local_buf len ch s.st).1 % 4 = 0 then 0 else s.buf s1.j) := by
  have hsz := record_size_ge (e.exec s.local_buf len ch s.st).1
  have hup : (e.exec s.local_buf len ch s.st).1 ≤ 32767 := by
    by_cases h0 : 0 ≤ (e.exec s.local_buf len ch s.st).1
    · have := text_length_some _ _ _ _ (htext h0)
      omega
    · omega
  have hw : wrapS 16 (e.exec s.local_buf len ch s.st).1 = (e.exec s.local_buf len ch s.st).1 :=
    wrapS_16_of_range _ hL hup
  have hj4 : wrapS 16 (s.j + 4) = s.j + 4 := wrapS_16_of_range _ (by omega) (by omega)
  obtain ⟨s1, hstep, hj, _, _⟩ := read_all_attr_step_spec be len ch e i s
    (by
      intro h0
      rw [hw] at h0
      rw [htext h0]
      simp)
  have hjx := next_cursor_exact s.j _ hj0 hL hup hsum
  have hj1 : s1.j = s.j + record_size (e.exec s.local_buf len ch s.st).1 := by rw [hj, hjx]
  refine ⟨s1, hstep, hj1, ?_⟩
  have hpos : ∀ J : Int, 0 ≤ (e.exec s.local_buf len ch s.st).1 →
      J = s.j + record_size (e.exec s.local_buf len ch s.st).1 →
      sprintf_s (store32 be s.buf s.j
          (Xil_EndianSwap32 ((e.exec s.local_buf len ch s.st).1 % 2 ^ 32).toNat))
        (s.j + 4) (e.exec s.local_buf len ch s.st).2.1
        (e.exec s.local_buf len ch s.st).1.toNat J
      = (if 0 ≤ (e.exec s.local_buf len ch s.st).1 ∧
          (e.exec s.local_buf len ch s.st).1 % 4 = 0 then 0 else s.buf J) := by
    intro J h0 hJ
    have hrs := record_size_of_nonneg _ h0
    have hcast : (((e.exec s.local_buf len ch s.st).1.toNat : Nat) : Int)
        = (e.exec s.local_buf len ch s.st).1 := Int.toNat_of_nonneg h0
    by_cases h4 : (e.exec s.local_buf len ch s.st).1 % 4 = 0
    · have hru4 : roundUp4 (e.exec s.local_buf len ch s.st).1
          = (e.exec s.local_buf len ch s.st).1 := by
        unfold roundUp4
        omega
      have hneq : ¬ (s.j + 4 ≤ J ∧
          J < s.j + 4 + (((e.exec s.local_buf len ch s.st).1.toNat : Nat) : Int)) := by
        omega
      have heq : J = s.j + 4 + (((e.exec s.local_buf len ch s.st).1.toNat : Nat) : Int) := by
        omega
      have hc : 0 ≤ (e.exec s.local_buf len ch s.st).1 ∧
          (e.exec s.local_buf len ch s.st).1 % 4 = 0 := ⟨h0, h4⟩
      rw [if_pos hc]
      unfold sprintf_s
      rw [if_neg hneq, if_pos heq]
    · have hru4 : (e.exec s.local_buf len ch s.st).1
          < roundUp4 (e.exec s.local_buf len ch s.st).1 := by
        unfold roundUp4
        omega
      have hnot : ¬ (0 ≤ (e.exec s.local_buf len ch s.st).1 ∧
          (e.exec s.local_buf len ch s.st).1 % 4 = 0) := fun h => h4 h.2
      rw [if_neg hnot]
      rw [sprintf_s_outside _ _ _ _ _ (by omega), store32_outside _ _ _ _ _ (by omega)]
  unfold read_all_attr_step at hstep
  by_cases h0 : 0 ≤ (e.exec s.local_buf len ch s.st).1
  · have hrs := record_size_of_nonneg _ h0
    have hru := roundUp4_ge (e.exec s.local_buf len ch s.st).1
    have hcast : (((e.exec s.local_buf len ch s.st).1.toNat : Nat) : Int)
        = (e.exec s.local_buf len ch s.st).1 := Int.toNat_of_nonneg h0
    simp only [hw, hj4, h0, htext h0, if_true, Option.some.injEq] at hstep
    subst hstep
    refine ⟨rfl, rfl, ?_, hpos _ h0 hj1⟩
    intro a ha
    have ha' : a < s.j ∨ s.j + record_size (e.exec s.local_buf len ch s.st).1 < a := by
      rw [← hj1]
      exact ha
    show sprintf_s _ _ _ _ a = s.buf a
    rw [sprintf_s_outside _ _ _ _ _ (by omega), store32_outside _ _ _ _ _ (by omega)]
  · have hrs := record_size_of_neg _ h0
    simp only [hw, hj4, h0, if_false, Option.some.injEq] at hstep
    subst hstep
    have hnot : ¬ (0 ≤ (e.exec s.local_buf len ch s.st).1 ∧
        (e.exec s.local_buf len ch s.st).1 % 4 = 0) := fun h => h0 h.1
    rw [if_neg hnot]
    refine ⟨rfl, rfl, ?_, ?_⟩
    · intro a ha
      have ha' : a < s.j ∨ s.j + record_size (e.exec s.local_buf len ch s.st).1 < a := by
        rw [← hj1]
        exact ha
      show store32 _ _ _ _ a = s.buf a
      rw [store32_outside _ _ _ _ _ (by omega)]
    · have hj1' : s.j + 4 = s.j + record_size (e.exec s.local_buf len ch s.st).1 := hj1
      show store32 _ _ _ _ (s.j + 4) = s.buf (s.j + 4)
      rw [store32_outside _ _ _ _ _ (by omega)]
/-- The loop of the bulk packer, for handlers that return a failure or the length
of their text, while the cursor stays in range: no byte below the start cursor
or beyond the final cursor is changed, and the byte at the final cursor is the
terminator of the last payload or the byte that was there. -/
theorem read_all_attr_loop_frame {σ : Type} (be : Bool) (len : Nat) (ch : channel_info) :
    ∀ (m : List (attrtibute_map σ)) (k : Nat) (s : BulkState σ),
      k + m.length ≤ 32767 → returns_text_length len m → 0 ≤ s.j →
      s.j + total_size ((expected_records len ch m s.local_buf s.st).map Prod.fst) ≤ 32767 →
      ∃ s', read_all_attr_loop be len ch m k s = some s' ∧
        s'.j = s.j + total_size ((expected_records len ch m s.local_buf s.st).map Prod.fst) ∧
        (∀ a, a < s.j ∨ s'.j < a → s'.buf a = s.buf a) ∧
        s'.buf s'.j = byte_at_total (s.buf s'.j)
          ((expected_records len ch m s.local_buf s.st).map Prod.fst).getLast? := by
  intro m
  induction m with
  | nil =>
    intro k s _ _ _ _
    exact ⟨s, rfl, by simp [expected_records, total_size], fun a _ => rfl,
      by simp [expected_records, byte_at_total]⟩
  | cons e rest ih =>
    intro k s hk hwell hj0 hsum
    have hlen : (e :: rest).length = rest.length + 1 := rfl
    have hexp : expected_records len ch (e :: rest) s.local_buf s.st
        = ((e.exec s.local_buf len ch s.st).1,
            if 0 ≤ (e.exec s.local_buf len ch s.st).1 then
              bytes_at (e.exec s.local_buf len ch s.st).2.1 0
                (e.exec s.local_buf len ch s.st).1.toNat
            else []) ::
          expected_records len ch rest (e.exec s.local_buf len ch s.st).2.1
            (e.exec s.local_buf len ch s.st).2.2 := rfl
    rw [hexp] at hsum ⊢
    simp only [List.map_cons, total_size_cons] at hsum ⊢
    have hw := hwell e (by simp) s.local_buf ch s.st
    have hsz := record_size_ge (e.exec s.local_buf len ch s.st).1
    have htn := total_size_nonneg
      ((expected_records len ch rest (e.exec s.local_buf len ch s.st).2.1
        (e.exec s.local_buf len ch s.st).2.2).map Prod.fst)
    have hge := total_size_ge
      ((expected_records len ch rest (e.exec s.local_buf len ch s.st).2.1
        (e.exec s.local_buf len ch s.st).2.2).map Prod.fst)
    have hl := expected_records_length len ch rest (e.exec s.local_buf len ch s.st).2.1
      (e.exec s.local_buf len ch s.st).2.2
    simp only [List.length_map, hl] at hge
    obtain ⟨s1, hstep, hj1, hloc, hst, hframe, hlast⟩ :=
      read_all_attr_step_frame be len ch e k s hj0 hw.1 (by omega) hw.2
    have hwell' : returns_text_length len rest := fun x hx => hwell x (by simp [hx])
    obtain ⟨s', hloop, hj', hframe', hlast'⟩ := ih (k + 1) s1 (by omega) hwell'
      (by omega) (by rw [hloc, hst, hj1]; omega)
    rw [hloc, hst] at hj' hlast'
    have hnot : ¬ (32767 < k + 1) := by omega
    refine ⟨s', ?_, ?_, ?_, ?_⟩
    · unfold read_all_attr_loop
      rw [hstep]
      simp only [hnot, if_false]
      exact hloop
    · rw [hj', hj1]; omega
    · intro a ha
      rw [hframe' a (by omega), hframe a (by omega)]
    · cases hrest : rest with
      | nil =>
        subst hrest
        have hs : s' = s1 := by
          simp only [read_all_attr_loop, Option.some.injEq] at hloop
          exact hloop.symm
        subst hs
        rw [hlast]
        simp [expected_records, byte_at_total]
      | cons e2 rest2 =>
        subst hrest
        have hlt : s1.j < s'.j := by
          simp only [List.length_cons] at hge
          omega
        rw [hlast', hframe _ (Or.inr hlt)]
        have hexp2 : ∀ (b : Mem) (t : σ), (expected_records len ch (e2 :: rest2) b t).map Prod.fst
            = (e2.exec b len ch t).1 ::
              (expected_records len ch rest2 (e2.exec b len ch t).2.1
                (e2.exec b len ch t).2.2).map Prod.fst := fun _ _ => rfl
        rw [hexp2, List.getLast?_cons_cons]
/-- C20 (counterexample): on a little-endian host, a table whose only handler
returns a text of four characters makes `read_all_attr` return 8 and store the
terminator of the payload at offset 8, which held `0xFF` before: a byte at the
returned total is written. The byte after it is left alone. -/
theorem bulk_terminator_at_returned_total :
    (read_all_attr false zero_mem ff_mem 16 ⟨0, false⟩ sample_map_four ()).map
        (fun o => (o.ret, [o.buf 4, o.buf 5, o.buf 6, o.buf 7, o.buf 8, o.buf 9]))
      = some (8, [49, 48, 48, 48, 0, 255]) ∧
    ff_mem 8 = 255 := by
  decide

/-- C20 (amended): on either host byte order, for every table of at most 32767
handlers each of which returns either a failure (not below -32768) or the
length of the text it leaves in the scratch buffer, and as long as the record
sizes add up to at most 32767, `read_all_attr` returns that sum and modifies
only output-buffer bytes at the offsets from 0 up to and including the returned
total: every byte below offset 0 or beyond the returned total is as it was, and
the byte at the returned total is the terminator (0) of the last payload when
the last handler succeeded with a length that is a multiple of 4, and as it was
otherwise. -/
theorem bulk_writes_up_to_returned_total {σ : Type} (host_big_endian : Bool)
    (stack buf : Mem) (len : Nat) (ch : channel_info) (m : List (attrtibute_map σ)) (st : σ)
    (hlen : m.length ≤ 32767) (hwell : returns_text_length len m)
    (htotal : total_size ((expected_records len ch m stack st).map Prod.fst) ≤ 32767) :
    ∃ o, read_all_attr host_big_endian stack buf len ch m st = some o ∧
      o.ret = total_size ((expected_records len ch m stack st).map Prod.fst) ∧
      0 ≤ o.ret ∧
      (∀ a, a < 0 ∨ o.ret < a → o.buf a = buf a) ∧
      o.buf o.ret = byte_at_total (buf o.ret)
        ((expected_records len ch m stack st).map Prod.fst).getLast? ∧
      (o.buf o.ret = buf o.ret ∨ o.buf o.ret = 0) := by
  obtain ⟨s', hloop, hj, hframe, hlast⟩ :=
    read_all_attr_loop_frame host_big_endian len ch m 0 ⟨0, buf, stack, st, [], []⟩ (by omega)
      hwell (le_refl _) (by simpa using htotal)
  simp only [zero_add] at hj
  have hnn := total_size_nonneg ((expected_records len ch m stack st).map Prod.fst)
  refine ⟨⟨s'.j, s'.buf, s'.st, s'.calls, s'.recs⟩, ?_, hj, ?_, hframe, hlast, ?_⟩
  · simp [read_all_attr, hloop]
  · show 0 ≤ s'.j
    rw [hj]
    exact hnn
  · show s'.buf s'.j = buf s'.j ∨ s'.buf s'.j = 0
    rw [hlast]
    unfold byte_at_total
    split
    · split
      · exact Or.inr rfl
      · exact Or.inl rfl
    · exact Or.inl rfl

/-- Witness of C20 (amended): the sample table whose last handler returns a text
of four characters, packed into a buffer full of `0xFF`: the returned total is
20, the byte at offset 20 is the terminator and the bytes from 21 on and below 0
are untouched. -/
theorem bulk_writes_up_to_returned_total_witness :
    sample_map_failing.length ≤ 32767 ∧ returns_text_length 16 sample_map_failing ∧
    total_size ((expected_records 16 ⟨0, false⟩ sample_map_failing zero_mem ()).map Prod.fst)
      = 20 ∧
    (∃ o, read_all_attr false zero_mem ff_mem 16 ⟨0, false⟩ sample_map_failing () = some o ∧
      o.ret = 20 ∧ (∀ a, a < 0 ∨ 20 < a → o.buf a = 255) ∧ o.buf 20 = 0) := by
  obtain ⟨o, h1, h2, _, h4, h5, _⟩ := bulk_writes_up_to_returned_total false zero_mem ff_mem 16
    ⟨0, false⟩ sample_map_failing () (by decide) (sample_map_failing_returns_text_length 16)
    (by decide)
  have h20 : o.ret = 20 := by rw [h2]; decide
  rw [h20] at h4 h5
  refine ⟨by decide, sample_map_failing_returns_text_length 16, by decide, o, h1, h20, h4, ?_⟩
  rw [h5]
  decide
